import Mathlib

/-!
ConfidenceContours (gammacombo): a shallow embedding of `ConfidenceContours.cpp`.

The histogram class `TH2F`, its axes, the contour tracer behind
`Draw("contlist")` and the class `Contour` are not part of the translated
source file.  They are modelled below from the specification, or taken as
parameters, and marked as such.

Bin contents are `float` in the program and rational numbers here.  The one
arithmetic expression on bin contents, in `transformChi2valleyToHill`, is
evaluated as the program evaluates it: each addition is rounded to `double`
and the stored result to `float` (`toDouble`, `toFloat`: round to nearest, ties
to even, with subnormal numbers).  Overflow to infinity is not modelled: the
rounding functions agree with the machine as long as magnitudes stay below
`2 ^ 127`, and the statements on transformed contents carry such a bound.
Values that are copied and not computed (the padding of `addBoundaryBins`) are
floats already when the grid holds floats, and are copied as they are.

The `int` arithmetic of the loop headers of `Draw` and `DrawDashedLine` is
taken modulo `2 ^ 32` (`wrapInt32`).

Loops `for (int i = 1; i <= n; i++)` are folds over `List.range' 1 n`; the loop
`for (int ic = 4; ic >= 0; ic--)` is a fold over `[4, 3, 2, 1, 0]`.  The loop
bounds of the source are re-read from the histogram at every iteration;
`SetBinContent` leaves the axes alone (`TH2F.SetBinContent_fXaxis`,
`TH2F.SetBinContent_fYaxis`), so reading them once at loop entry is the same.

An index beyond the end of a `std::vector` is undefined behaviour in the
program.  The magnetic-boundary loop stops with `none` there; `Draw`,
`DrawDashedLine` and `setStyle` stop with a `Fault` that records the vector and
the index.  The canvas is the list of draw calls made so far.
-/

/-- Modelled from the spec: one axis of a Grid ("each axis has count, min, max,
and uniform bin width"); the class `TAxis` is missing from the sources. -/
structure TAxis where
  fNbins : Nat
  fXmin : ℚ
  fXmax : ℚ

namespace TAxis

def GetNbins (a : TAxis) : Nat := a.fNbins

def GetXmin (a : TAxis) : ℚ := a.fXmin

def GetXmax (a : TAxis) : ℚ := a.fXmax

/-- Modelled from the spec: the uniform bin width of an axis, the axis range
divided by the bin count.  The argument is the bin number, which a uniform
axis ignores. -/
def GetBinWidth (a : TAxis) (_bin : Nat) : ℚ := (a.fXmax - a.fXmin) / a.fNbins

end TAxis

/-- Modelled from the spec: the Grid ("rectangular array of bin contents indexed
by (x,y)"); the class `TH2F` is missing from the sources.  Bins are numbered
from 1 on each axis.  `fContour` holds the configured contour levels. -/
structure TH2F where
  fXaxis : TAxis
  fYaxis : TAxis
  fArray : Nat → Nat → ℚ
  fContour : List ℚ

namespace TH2F

/-- Modelled from the spec: the constructor
`TH2F(name, title, nbinsx, xlow, xup, nbinsy, ylow, yup)`; all bins start at 0.
The name and title have no effect on the contents and are left out. -/
def new (nbinsx : Nat) (xlow xup : ℚ) (nbinsy : Nat) (ylow yup : ℚ) : TH2F :=
  { fXaxis := ⟨nbinsx, xlow, xup⟩
    fYaxis := ⟨nbinsy, ylow, yup⟩
    fArray := fun _ _ => 0
    fContour := [] }

def GetNbinsX (h : TH2F) : Nat := h.fXaxis.GetNbins

def GetNbinsY (h : TH2F) : Nat := h.fYaxis.GetNbins

def GetXaxis (h : TH2F) : TAxis := h.fXaxis

def GetYaxis (h : TH2F) : TAxis := h.fYaxis

def GetBinContent (h : TH2F) (ix iy : Nat) : ℚ := h.fArray ix iy

def SetBinContent (h : TH2F) (ix iy : Nat) (v : ℚ) : TH2F :=
  { h with fArray := fun x y => if x = ix ∧ y = iy then v else h.fArray x y }

/-- The contents of the bins `1..Nx` x `1..Ny`, column by column. -/
def binContents (h : TH2F) : List ℚ :=
  (List.range' 1 h.fXaxis.fNbins).flatMap fun ix =>
    (List.range' 1 h.fYaxis.fNbins).map fun iy => h.fArray ix iy

/-- Modelled from the spec: the Grid "exposes minimum value", the least content
of the bins `1..Nx` x `1..Ny`.  A grid without bins is excluded by the Grid
invariant (bin counts at least 1); the model returns 0 for it. -/
def GetMinimum (h : TH2F) : ℚ :=
  match h.binContents with
  | [] => 0
  | v :: vs => vs.foldl min v

/-- Modelled from the spec: `SetContour(n)` configures `n` contour levels, not
yet given values. -/
def SetContour (h : TH2F) (nlevels : Nat) : TH2F :=
  { h with fContour := List.replicate nlevels 0 }

/-- Modelled from the spec: `SetContourLevel(level, value)` sets the threshold
of one configured level. -/
def SetContourLevel (h : TH2F) (level : Nat) (value : ℚ) : TH2F :=
  { h with fContour := h.fContour.set level value }

end TH2F

/-- The loop `for (int i = lo; i < lo + n; i++) body`, on a state `σ`. -/
def forUp {σ : Type} (lo n : Nat) (body : Nat → σ → σ) (s : σ) : σ :=
  (List.range' lo n).foldl (fun s i => body i s) s

/-- Rounding of a rational to the nearest integer, ties to the even one. -/
def roundHalfEven (x : ℚ) : ℤ :=
  if x - ⌊x⌋ < 1 / 2 then ⌊x⌋
  else if 1 / 2 < x - ⌊x⌋ then ⌊x⌋ + 1
  else if ⌊x⌋ % 2 = 0 then ⌊x⌋ else ⌊x⌋ + 1

/-- The number of halvings that bring `n` below 2, within `fuel` steps. -/
def log2Fuel : Nat → Nat → Nat
  | 0, _ => 0
  | fuel + 1, n => if 2 ≤ n then log2Fuel fuel (n / 2) + 1 else 0

/-- The integer binary logarithm of `n` (0 for `n = 0`). -/
def ilog2 (n : Nat) : Nat := log2Fuel n n

/-- The binary exponent `e` of a non-zero rational: `2 ^ e ≤ |x| < 2 ^ (e + 1)`. -/
def binade (x : ℚ) : ℤ :=
  if (2 : ℚ) ^ ((ilog2 x.num.natAbs : ℤ) - (ilog2 x.den : ℤ)) ≤ |x| then
    (ilog2 x.num.natAbs : ℤ) - (ilog2 x.den : ℤ)
  else (ilog2 x.num.natAbs : ℤ) - (ilog2 x.den : ℤ) - 1

/-- Rounding to the nearest number of a binary floating-point format with `p`
significant bits and least normal exponent `emin` (ties to even; below
`2 ^ emin` the spacing stays that of the subnormal numbers).  The exponent is
not bounded above: overflow to infinity is not modelled. -/
def roundBinary (p : ℕ) (emin : ℤ) (x : ℚ) : ℚ :=
  if x = 0 then 0
  else (roundHalfEven (x / 2 ^ (max (binade x) emin - ((p : ℤ) - 1))) : ℚ)
    * 2 ^ (max (binade x) emin - ((p : ℤ) - 1))

/-- Rounding to `float` (IEEE 754 binary32: 24 significant bits). -/
def toFloat (x : ℚ) : ℚ := roundBinary 24 (-126) x

/-- Rounding to `double` (IEEE 754 binary64: 53 significant bits). -/
def toDouble (x : ℚ) : ℚ := roundBinary 53 (-1022) x

/-- The value `-hist->GetBinContent(ix,iy)+offset+chi2min` of source line 55 as
the histogram stores it, for a bin content `v`.  `GetBinContent` returns a
`double` and `offset` and `chi2min` are `float`, so both additions are done in
`double`, left to right, each rounded; `TH2F::SetBinContent` stores the result
as a `float`. -/
def hillContent (offset chi2min v : ℚ) : ℚ :=
  toFloat (toDouble (toDouble (-v + offset) + chi2min))

/-- The result of `int` arithmetic: the value modulo `2 ^ 32`, in the range
`-2 ^ 31 .. 2 ^ 31 - 1`.  (Signed overflow is undefined behaviour in the
program; the model takes the two's-complement result.) -/
def wrapInt32 (x : Int) : Int := (x + 2147483648) % 4294967296 - 2147483648

/-- Modelled from the spec: a polygon ring returned by the tracer, a sequence of
boundary points (`TGraph` is missing from the sources). -/
abbrev TGraph := List (ℚ × ℚ)

/-- Modelled from the spec: a RingSet, "for a single requested level, the set of
closed polygon rings the tracer returned; may be empty". -/
abbrev TList := List TGraph

def TList.IsEmpty (l : TList) : Bool := List.isEmpty l

/-- Modelled from the spec: the tracer's output, `array[5] of RingSet`;
`At(ic)` is function application. -/
abbrev TObjArray := Fin 5 → TList

/-- The configuration object (`OptParser`), the fields this file reads. -/
structure OptParser where
  debug : Bool
  plot2dcl : Bool
  plotmagnetic : Bool
  plotnsigmacont : Int

/-- Modelled from the spec: a Contour "owns an ordered sequence of boundary
points (or multiple disjoint rings) for one confidence level, tagged with its
resolved sigma value and a visual style"; the class `Contour` is missing from
the sources. -/
structure Contour where
  m_contours : TList
  m_sigma : Int
  m_linecolor : Int
  m_linestyle : Int
  m_linewidth : Int
  m_fillcolor : Int
  m_fillstyle : Int
deriving DecidableEq, Repr

namespace Contour

/-- Modelled from the spec: the constructor `Contour(arg, listOfGraphs)`; the
sigma value is not resolved yet (-1) and the style is blank. -/
def new (_arg : OptParser) (listOfGraphs : TList) : Contour :=
  { m_contours := listOfGraphs, m_sigma := -1, m_linecolor := 0, m_linestyle := 0,
    m_linewidth := 0, m_fillcolor := 0, m_fillstyle := 0 }

/-- Modelled from the spec: `setSigma` tags the contour with its sigma value. -/
def setSigma (c : Contour) (s : Int) : Contour := { c with m_sigma := s }

end Contour

inductive histogramType where
  | kChi2
  | kPvalue
deriving DecidableEq, Repr

/-- The object state of `ConfidenceContours`. -/
structure ConfidenceContours where
  m_arg : OptParser
  m_contours : List Contour
  m_linecolor : List Int
  m_linestyle : List Int
  m_fillcolor : List Int
  m_fillstyle : List Int
  m_linewidth : List Int

namespace ConfidenceContours

/-- The two histograms `addBoundaryBins` holds pointers to: its argument and the
histogram it creates and returns. -/
structure PadState where
  hist : TH2F
  hBoundaries : TH2F

/-- Body of the inner loop of `addBoundaryBins` (source lines 32-37). -/
def addBoundaryBinsBody (boundary : ℚ) (ix iy : Nat) (s : PadState) : PadState :=
  if ix = 1 ∨ ix = s.hBoundaries.GetXaxis.GetNbins
      ∨ iy = 1 ∨ iy = s.hBoundaries.GetYaxis.GetNbins then
    { s with hBoundaries := s.hBoundaries.SetBinContent ix iy boundary }
  else
    { s with hBoundaries :=
        s.hBoundaries.SetBinContent ix iy (s.hist.GetBinContent (ix - 1) (iy - 1)) }

/-- `ConfidenceContours::addBoundaryBins`.  The result records the returned
histogram (`hBoundaries`) and the argument histogram as the call leaves it
(`hist`). -/
def addBoundaryBins (hist : TH2F) : PadState :=
  let boundary : ℚ := hist.GetMinimum
  let hBoundaries : TH2F := TH2F.new
    (hist.GetNbinsX + 2)
    (hist.GetXaxis.GetXmin - hist.GetXaxis.GetBinWidth 1)
    (hist.GetXaxis.GetXmax + hist.GetXaxis.GetBinWidth 1)
    (hist.GetNbinsY + 2)
    (hist.GetYaxis.GetXmin - hist.GetYaxis.GetBinWidth 1)
    (hist.GetYaxis.GetXmax + hist.GetYaxis.GetBinWidth 1)
  forUp 1 hBoundaries.GetXaxis.GetNbins
    (fun ix s => forUp 1 s.hBoundaries.GetYaxis.GetNbins
      (fun iy s => addBoundaryBinsBody boundary ix iy s) s)
    ⟨hist, hBoundaries⟩

/-- Body of the inner loop of `transformChi2valleyToHill` (source line 55). -/
def transformBody (offset chi2min : ℚ) (ix iy : Nat) (hist : TH2F) : TH2F :=
  hist.SetBinContent ix iy (hillContent offset chi2min (hist.GetBinContent ix iy))

/-- `ConfidenceContours::transformChi2valleyToHill`: the histogram is changed in
place; the result is its new state.  The minimum is stored in a `float`
(source line 51). -/
def transformChi2valleyToHill (hist : TH2F) (offset : ℚ) : TH2F :=
  let chi2min : ℚ := toFloat hist.GetMinimum
  forUp 1 hist.GetXaxis.GetNbins
    (fun ix h => forUp 1 h.GetYaxis.GetNbins
      (fun iy h => transformBody offset chi2min ix iy h) h)
    hist

/-- The constant `offset` of `computeContours` (source line 79). -/
def offset : ℚ := 30

/-- The constant `nMaxContours` of `computeContours` (source line 86). -/
def nMaxContours : Nat := 5

/-- The level configuration of `computeContours` (source lines 87-112). -/
def configureLevels (arg : OptParser) (type : histogramType) (offset : ℚ)
    (histb : TH2F) : TH2F :=
  let histb := histb.SetContour nMaxContours
  if type = histogramType.kChi2 then
    if arg.plot2dcl then
      let histb := histb.SetContourLevel 4 (offset - 2.30)
      let histb := histb.SetContourLevel 3 (offset - 6.18)
      let histb := histb.SetContourLevel 2 (offset - 11.83)
      let histb := histb.SetContourLevel 1 (offset - 19.34)
      histb.SetContourLevel 0 (offset - 28.76)
    else
      let histb := histb.SetContourLevel 4 (offset - 1)
      let histb := histb.SetContourLevel 3 (offset - 4)
      let histb := histb.SetContourLevel 2 (offset - 9)
      let histb := histb.SetContourLevel 1 (offset - 16)
      histb.SetContourLevel 0 (offset - 25)
  else
    let histb := histb.SetContourLevel 4 0.3173
    let histb := histb.SetContourLevel 3 4.55e-2
    let histb := histb.SetContourLevel 2 2.7e-3
    let histb := histb.SetContourLevel 1 6.3e-5
    histb.SetContourLevel 0 5.7e-7

/-- The indices visited by `for (int ic = 4; ic >= 0; ic--)`. -/
def icDown : List (Fin 5) := [4, 3, 2, 1, 0]

/-- The first loop of the sigma assignment (source lines 128-131): the number
of empty ring-sets. -/
def countEmptyContours (contours : TObjArray) : Int :=
  icDown.foldl (fun nEmptyContours ic =>
    if (contours ic).IsEmpty then nEmptyContours + 1 else nEmptyContours) 0

/-- The second loop of the sigma assignment (source lines 132-138): one contour
is appended to `m_contours` for each non-empty ring-set. -/
def assignSigma (arg : OptParser) (contours : TObjArray) (nEmptyContours : Int)
    (m_contours : List Contour) : List Contour :=
  icDown.foldl (fun m ic =>
    if !(contours ic).IsEmpty then
      let cont := Contour.new arg (contours ic)
      let cont := cont.setSigma (5 - nEmptyContours - (ic.val : Int))
      m ++ [cont]
    else m) m_contours

/-- The magnetic-boundary loop (source lines 142-144).  `m_contours[ic]` beyond
the end of the vector is undefined behaviour in the program: the model stops
with `none`. -/
def magneticLoop (magneticBoundaries : TH2F → Contour → Contour) (hist : TH2F)
    (m_contours : List Contour) : Option (List Contour) :=
  icDown.foldl (fun m ic =>
    match m with
    | none => none
    | some cs =>
      match cs[ic.val]? with
      | none => none
      | some c => some (cs.set ic.val (magneticBoundaries hist c))) (some m_contours)

/-- What `computeContours` calls into and does not own: the tracer (the contour
list `Draw("contlist")` leaves for a histogram with configured levels) and the
geometric rule of `Contour::magneticBoundaries`. -/
structure Env where
  contlist : TH2F → TObjArray
  magneticBoundaries : TH2F → Contour → Contour

/-- The state `computeContours` acts on: the object, the caller's histogram
(reached through the pointer `hist`) and the process-wide batch flag of
`gROOT`. -/
structure ProgState where
  self : ConfidenceContours
  hist : TH2F
  batch : Bool

/-- Modelled from the spec: `gROOT->SetBatch(b)` sets the process-wide
"interactive rendering enabled/disabled" flag; the result is the new flag. -/
def SetBatch (_batch : Bool) (b : Bool) : Bool := b

/-- `ConfidenceContours::computeContours`.  The debug printout has no effect on
the state and is left out.  The result is `none` when the program runs into an
out-of-range access of `m_contours`. -/
def computeContours (env : Env) (s : ProgState) (type : histogramType) :
    Option ProgState :=
  let arg := s.self.m_arg
  -- clean up contours from a previous call
  let m_contours : List Contour := []
  -- transform chi2 from valley to hill
  let hist := if type = histogramType.kChi2 then
      transformChi2valleyToHill s.hist offset else s.hist
  -- add boundaries
  let pad := addBoundaryBins hist
  let hist := pad.hist
  -- make contours
  let histb := configureLevels arg type offset pad.hBoundaries
  -- create and access the contours
  let batch := SetBatch s.batch true
  let contours := env.contlist histb
  let batch := SetBatch batch false
  let nEmptyContours := countEmptyContours contours
  let m_contours := assignSigma arg contours nEmptyContours m_contours
  -- magnetic boundaries
  if arg.plotmagnetic then
    match magneticLoop env.magneticBoundaries hist m_contours with
    | none => none
    | some m_contours =>
      some { self := { s.self with m_contours := m_contours }, hist := hist, batch := batch }
  else
    some { self := { s.self with m_contours := m_contours }, hist := hist, batch := batch }

/-- The ring-sets the tracer hands to the sigma assignment of `computeContours`
(source lines 78-119) for the caller's histogram `hist`: the contour list of
the transformed, padded histogram with its levels configured. -/
def tracedContours (env : Env) (arg : OptParser) (hist : TH2F) (type : histogramType) :
    TObjArray :=
  env.contlist (configureLevels arg type offset
    (addBoundaryBins (if type = histogramType.kChi2 then
      transformChi2valleyToHill hist offset else hist)).hBoundaries)

/-- The sigma assignment of `computeContours` (source lines 128-138), both
loops, on the collection `clear()` has emptied. -/
def sigmaAssignment (arg : OptParser) (contours : TObjArray) : List Contour :=
  assignSigma arg contours (countEmptyContours contours) []

/-- The sigma labels of a contour list, in storage order. -/
def sigmaLabels (m : List Contour) : List Int := m.map Contour.m_sigma

/-- The tracer packing the comment of source lines 124-127 describes: no empty
ring-set at an index below a non-empty one. -/
def packed (contours : TObjArray) : Prop :=
  ∀ i j : Fin 5, i < j → (contours j).IsEmpty = false → (contours i).IsEmpty = false

/-- The number of non-empty ring-sets among the five. -/
def countNonEmpty (contours : TObjArray) : Nat :=
  ([0, 1, 2, 3, 4] : List (Fin 5)).countP (fun ic => !(contours ic).IsEmpty)

/-- The content `addBoundaryBins` writes into bin `(x, y)` of a padded histogram
with `NX` x `NY` bins. -/
def padCell (hist : TH2F) (NX NY : Nat) (boundary : ℚ) (x y : Nat) : ℚ :=
  if x = 1 ∨ x = NX ∨ y = 1 ∨ y = NY then boundary else hist.fArray (x - 1) (y - 1)

/-- The specification's threshold table (section 4.3), column "1D chi2 Delta",
by sigma. -/
def specDelta1D (sigma : Nat) : ℚ :=
  match sigma with
  | 1 => 1.0
  | 2 => 4.0
  | 3 => 9.0
  | 4 => 16.0
  | 5 => 25.0
  | _ => 0

/-- The specification's threshold table (section 4.3), column "2D chi2 Delta",
by sigma. -/
def specDelta2D (sigma : Nat) : ℚ :=
  match sigma with
  | 1 => 2.30
  | 2 => 6.18
  | 3 => 11.83
  | 4 => 19.34
  | 5 => 28.76
  | _ => 0

/-- The specification's threshold table (section 4.3), column "p-value", by
sigma. -/
def specPValue (sigma : Nat) : ℚ :=
  match sigma with
  | 1 => 0.3173
  | 2 => 4.55e-2
  | 3 => 2.7e-3
  | 4 => 6.3e-5
  | 5 => 5.7e-7
  | _ => 0

/-- The specification's level for a sigma (section 4.3): "For chi2, the level
value passed to the tracer is `offset - Delta`. For p-value, the raw p-value
threshold is used directly." -/
def specLevel (type : histogramType) (plot2dcl : Bool) (offset : ℚ) (sigma : Nat) : ℚ :=
  match type with
  | histogramType.kChi2 =>
    offset - (if plot2dcl then specDelta2D sigma else specDelta1D sigma)
  | histogramType.kPvalue => specPValue sigma

/-- A ring-set with one ring, a triangle. -/
def oneRing : TList := [[(0, 0), (1, 0), (0, 1)]]

/-- Five ring-sets, non-empty exactly where the pattern says so. -/
def ringSetsOf (pattern : List Bool) : TObjArray :=
  fun ic => if pattern.getD ic.val false then oneRing else []

/-- A configuration with every flag off and five sigma contours to draw. -/
def argPlain : OptParser :=
  { debug := false, plot2dcl := false, plotmagnetic := false, plotnsigmacont := 5 }

/-- A grid of 2 x 3 bins over [0, 2] x [0, 6] with contents
`4 1 7 / 9 1 3`. -/
def gridSample : TH2F :=
  { fXaxis := ⟨2, 0, 2⟩
    fYaxis := ⟨3, 0, 6⟩
    fArray := fun x y =>
      if x = 1 then (if y = 1 then 4 else if y = 2 then 1 else 7)
      else (if y = 1 then 9 else if y = 2 then 1 else 3)
    fContour := [] }

/-- A tracer that finds the two loosest levels only, and no magnetic
adjustment. -/
def envSample : Env :=
  { contlist := fun _ => ringSetsOf [true, true, false, false, false]
    magneticBoundaries := fun _ c => c }

/-- A state whose contour collection holds a contour of an earlier call. -/
def stateSample : ProgState :=
  { self :=
      { m_arg := argPlain
        m_contours := [(Contour.new argPlain oneRing).setSigma 4]
        m_linecolor := [], m_linestyle := [], m_fillcolor := [], m_fillstyle := []
        m_linewidth := [] }
    hist := gridSample
    batch := false }

end ConfidenceContours

/-- An access the program makes beyond the end of one of its vectors (undefined
behaviour in the program): which vector, and the index it used. -/
inductive Fault where
  | contourIndex (i : Int)
  | styleIndex (i : Int)
deriving DecidableEq, Repr

/-- The element `v[i]` of a `std::vector` indexed by an `int`; an index outside
`0..size-1` is the fault `fault i`. -/
def vectorAt {α : Type} (v : List α) (i : Int) (fault : Int → Fault) : Except Fault α :=
  if 0 ≤ i then
    match v[i.toNat]? with
    | some a => Except.ok a
    | none => Except.error (fault i)
  else Except.error (fault i)

/-- The conversion of an `int` to `size_t` (64 bits), as in the comparison of
`plotnsigmacont` with `m_linestyle.size()`. -/
def toSizeT (i : Int) : Nat := (i % 2 ^ 64).toNat

/-- The indices visited by `for (int i = n - 1; i >= 0; i--)`: the start index
`n - 1` is computed in `int`, and the loop runs from it down to 0 (not at all
when it is negative). -/
def downFrom (n : Int) : List Nat := (List.range (wrapInt32 (n - 1) + 1).toNat).reverse

/-- The line style `kDashed` of the graphics library. -/
def kDashed : Int := 2

namespace Contour

/-- Modelled from the spec: `Contour::setStyle` sets the visual style (line/fill
color, line/fill pattern, line width) of a contour. -/
def setStyle (c : Contour) (linecolor linestyle linewidth fillcolor fillstyle : Int) :
    Contour :=
  { c with m_linecolor := linecolor, m_linestyle := linestyle, m_linewidth := linewidth,
           m_fillcolor := fillcolor, m_fillstyle := fillstyle }

end Contour

/-- What a contour puts on the canvas: `Contour::Draw()` (filled) or
`Contour::DrawLine()` (outline only), with the contour as it is when drawn. -/
inductive DrawCall where
  | Draw (c : Contour)
  | DrawLine (c : Contour)
deriving DecidableEq, Repr

namespace TH2F

/-- Modelled from the spec: the greatest content of the bins `1..Nx` x `1..Ny`,
the counterpart of `GetMinimum`; 0 for a grid without bins. -/
def GetMaximum (h : TH2F) : ℚ :=
  match h.binContents with
  | [] => 0
  | v :: vs => vs.foldl max v

/-- Every content of the bins `1..Nx` x `1..Ny` is a `float`. -/
def holdsFloats (h : TH2F) : Prop :=
  ∀ ix iy, 1 ≤ ix ∧ ix ≤ h.GetNbinsX → 1 ≤ iy ∧ iy ≤ h.GetNbinsY →
    toFloat (h.GetBinContent ix iy) = h.GetBinContent ix iy

/-- Every content of the bins `1..Nx` x `1..Ny` is at most `B` in magnitude. -/
def boundedBy (h : TH2F) (B : ℚ) : Prop :=
  ∀ ix iy, 1 ≤ ix ∧ ix ≤ h.GetNbinsX → 1 ≤ iy ∧ iy ≤ h.GetNbinsY →
    |h.GetBinContent ix iy| ≤ B

/-- Every content of the bins `1..Nx` x `1..Ny` is a multiple `a * 2 ^ k` of the
power of two `2 ^ k`, with an integer `a` of magnitude at most `B`. -/
def onLattice (h : TH2F) (k : ℤ) (B : ℤ) : Prop :=
  ∀ ix iy, 1 ≤ ix ∧ ix ≤ h.GetNbinsX → 1 ≤ iy ∧ iy ≤ h.GetNbinsY →
    ∃ a : ℤ, |a| ≤ B ∧ h.GetBinContent ix iy = (a : ℚ) * 2 ^ k

end TH2F

namespace ConfidenceContours

/-- The state the drawing operations act on: the object and the canvas, the
sequence of draw calls made so far. -/
structure DrawState where
  self : ConfidenceContours
  canvas : List DrawCall

/-- Body of the loop of `Draw` (source lines 155-156), at index `i`. -/
def DrawBody (st : DrawState) (i : Nat) : Except Fault DrawState := do
  let c ← vectorAt st.self.m_contours i Fault.contourIndex
  let linecolor ← vectorAt st.self.m_linecolor i Fault.styleIndex
  let linestyle ← vectorAt st.self.m_linestyle i Fault.styleIndex
  let linewidth ← vectorAt st.self.m_linewidth i Fault.styleIndex
  let fillcolor ← vectorAt st.self.m_fillcolor i Fault.styleIndex
  let fillstyle ← vectorAt st.self.m_fillstyle i Fault.styleIndex
  let c := c.setStyle linecolor linestyle linewidth fillcolor fillstyle
  pure { self := { st.self with m_contours := st.self.m_contours.set i c }
         canvas := st.canvas ++ [DrawCall.Draw c] }

/-- `ConfidenceContours::Draw`. -/
def Draw (st : DrawState) : Except Fault DrawState :=
  (downFrom st.self.m_arg.plotnsigmacont).foldlM DrawBody st

/-- Body of the loop of `DrawDashedLine` (source lines 167-168), at index `i`. -/
def DrawDashedLineBody (st : DrawState) (i : Nat) : Except Fault DrawState := do
  let c ← vectorAt st.self.m_contours i Fault.contourIndex
  let linecolor ← vectorAt st.self.m_linecolor i Fault.styleIndex
  let linewidth ← vectorAt st.self.m_linewidth i Fault.styleIndex
  let c := c.setStyle linecolor kDashed linewidth 0 0
  pure { self := { st.self with m_contours := st.self.m_contours.set i c }
         canvas := st.canvas ++ [DrawCall.DrawLine c] }

/-- `ConfidenceContours::DrawDashedLine`. -/
def DrawDashedLine (st : DrawState) : Except Fault DrawState :=
  (downFrom st.self.m_arg.plotnsigmacont).foldlM DrawDashedLineBody st

/-- Body of the padding loop of `setStyle` (source lines 187-192). -/
def setStyleBody (s : ConfidenceContours) : Except Fault ConfidenceContours := do
  let laststyle : Int := (s.m_linestyle.length : Int) - 1
  let x ← vectorAt s.m_linecolor laststyle Fault.styleIndex
  let s := { s with m_linecolor := s.m_linecolor ++ [x] }
  let x ← vectorAt s.m_linestyle laststyle Fault.styleIndex
  let s := { s with m_linestyle := s.m_linestyle ++ [x] }
  let x ← vectorAt s.m_fillcolor laststyle Fault.styleIndex
  let s := { s with m_fillcolor := s.m_fillcolor ++ [x] }
  let x ← vectorAt s.m_fillstyle laststyle Fault.styleIndex
  let s := { s with m_fillstyle := s.m_fillstyle ++ [x] }
  let x ← vectorAt s.m_linewidth laststyle Fault.styleIndex
  pure { s with m_linewidth := s.m_linewidth ++ [x] }

/-- `ConfidenceContours::setStyle`.  The diagnostic printout has no effect on
the state and is left out. -/
def setStyle (self : ConfidenceContours) (linecolor linestyle fillcolor fillstyle : List Int) :
    Except Fault ConfidenceContours :=
  let self := { self with m_linecolor := linecolor, m_linestyle := linestyle,
                          m_fillcolor := fillcolor, m_fillstyle := fillstyle }
  let self := forUp 0 self.m_linestyle.length
    (fun _ s => { s with m_linewidth := s.m_linewidth ++ [2] }) self
  -- check if enough styles where given for the number of contours to be plotted
  if toSizeT self.m_arg.plotnsigmacont > self.m_linestyle.length then
    (List.range' self.m_linestyle.length
        (self.m_arg.plotnsigmacont - (self.m_linestyle.length : Int)).toNat).foldlM
      (fun s _ => setStyleBody s) self
  else
    Except.ok self

/-- An object with no contours and no styles, asked for `n` sigma contours. -/
def selfEmpty (n : Int) : ConfidenceContours :=
  { m_arg := { argPlain with plotnsigmacont := n }
    m_contours := []
    m_linecolor := [], m_linestyle := [], m_fillcolor := [], m_fillstyle := []
    m_linewidth := [] }

end ConfidenceContours

namespace ConfidenceContours

/-- A tracer that finds no level at all (the surface crosses no threshold), and
no magnetic adjustment. -/
def envEmpty : Env :=
  { contlist := fun _ => ringSetsOf []
    magneticBoundaries := fun _ c => c }

/-- The sample state after `computeContours` on a p-value surface that crosses no
level: the collection is empty, the grid untouched, the batch flag off. -/
def stateAfterEmpty : ProgState :=
  { self := { stateSample.self with m_contours := [] }
    hist := gridSample
    batch := false }

end ConfidenceContours

namespace ConfidenceContours

/-- An object with three contours, labelled 1, 2, 3, and three styles, asked for
two sigma contours. -/
def selfThree : ConfidenceContours :=
  { m_arg := { argPlain with plotnsigmacont := 2 }
    m_contours := sigmaAssignment argPlain (ringSetsOf [true, true, true, false, false])
    m_linecolor := [1, 2, 3], m_linestyle := [4, 5, 6], m_fillcolor := [7, 8, 9]
    m_fillstyle := [10, 11, 12], m_linewidth := [2, 2, 2] }

/-- An object asked for five sigma contours that holds two line widths of an
earlier `setStyle`. -/
def selfWidths : ConfidenceContours := { selfEmpty 5 with m_linewidth := [9, 8] }

/-- The object `selfThree`, asked for `INT_MIN` sigma contours. -/
def selfThreeMin : ConfidenceContours :=
  { selfThree with m_arg := { argPlain with plotnsigmacont := -2147483648 } }

/-- The sample state with `INT_MIN` sigma contours to draw. -/
def stateSampleMin : ProgState :=
  { stateSample with
    self := { stateSample.self with m_arg := { argPlain with plotnsigmacont := -2147483648 } } }

/-- The sample state after `computeContours` on it as a chi2 surface, with the
tracer `envSample`. -/
def stateAfterChi2 : ProgState :=
  { self := { stateSample.self with
              m_contours := sigmaAssignment argPlain
                (ringSetsOf [true, true, false, false, false]) }
    hist := transformChi2valleyToHill gridSample offset
    batch := false }

/-- The sample state with the batch flag enabled before the call. -/
def stateBatch : ProgState := { stateSample with batch := true }

/-- The sample state with the magnetic boundary adjustment enabled. -/
def stateMagnetic : ProgState :=
  { stateSample with
    self := { stateSample.self with m_arg := { argPlain with plotmagnetic := true } } }

/-- A grid of 1 x 2 bins with the contents `0` and `0.1f`. -/
def gridTenth : TH2F :=
  { fXaxis := ⟨1, 0, 1⟩
    fYaxis := ⟨2, 0, 2⟩
    fArray := fun _ y => if y = 1 then 0 else toFloat (1 / 10)
    fContour := [] }

/-- A grid of 1 x 2 bins with the contents `1e17f` and `2e17f`. -/
def gridHuge : TH2F :=
  { fXaxis := ⟨1, 0, 1⟩
    fYaxis := ⟨2, 0, 2⟩
    fArray := fun _ y => if y = 1 then toFloat (10 ^ 17) else toFloat (2 * 10 ^ 17)
    fContour := [] }

/-- A grid of 1 x 2 bins with the contents `0` and `1e-7f`. -/
def gridTiny : TH2F :=
  { fXaxis := ⟨1, 0, 1⟩
    fYaxis := ⟨2, 0, 2⟩
    fArray := fun _ y => if y = 1 then 0 else toFloat (1 / 10 ^ 7)
    fContour := [] }

/-- A grid of 1 x 3 bins with the contents `0.1f`, `7.3f` and `30`. -/
def gridThree : TH2F :=
  { fXaxis := ⟨1, 0, 1⟩
    fYaxis := ⟨3, 0, 3⟩
    fArray := fun _ y => if y = 1 then toFloat (1 / 10) else if y = 2 then toFloat (73 / 10)
      else 30
    fContour := [] }

end ConfidenceContours

/-! ## Lemmas on rounding -/

/-- Rounding to an integer moves a number by at most one half. -/
theorem roundHalfEven_near (x : ℚ) :
    x - 1 / 2 ≤ (roundHalfEven x : ℚ) ∧ (roundHalfEven x : ℚ) ≤ x + 1 / 2 := by
  have h1 := Int.floor_le x
  have h2 := Int.lt_floor_add_one x
  unfold roundHalfEven
  split_ifs with a b c
  · constructor <;> linarith
  · push_cast
    constructor <;> linarith
  · constructor <;> linarith
  · push_cast
    constructor <;> linarith

/-- An integer rounds to itself. -/
theorem roundHalfEven_intCast (n : ℤ) : roundHalfEven (n : ℚ) = n := by
  simp [roundHalfEven]

/-- Rounding to an integer is monotone. -/
theorem roundHalfEven_mono {x y : ℚ} (h : x ≤ y) : roundHalfEven x ≤ roundHalfEven y := by
  by_contra hlt
  push_neg at hlt
  have h1 : (roundHalfEven y : ℚ) + 1 ≤ roundHalfEven x := by exact_mod_cast hlt
  have hx := (roundHalfEven_near x).2
  have hy := (roundHalfEven_near y).1
  have hxy : x = y := by linarith
  rw [hxy] at hlt
  exact lt_irrefl _ hlt

/-- Rounding does not go below an integer that is below the number. -/
theorem le_roundHalfEven {x : ℚ} {n : ℤ} (h : (n : ℚ) ≤ x) : n ≤ roundHalfEven x := by
  have := roundHalfEven_mono h
  rwa [roundHalfEven_intCast] at this

/-- Rounding does not go above an integer that is above the number. -/
theorem roundHalfEven_le {x : ℚ} {n : ℤ} (h : x ≤ (n : ℚ)) : roundHalfEven x ≤ n := by
  have := roundHalfEven_mono h
  rwa [roundHalfEven_intCast] at this

/-- With enough fuel the halving count is the binary logarithm. -/
theorem log2Fuel_bounds (fuel n : Nat) (h1 : 1 ≤ n) (hf : n ≤ fuel) :
    2 ^ log2Fuel fuel n ≤ n ∧ n < 2 ^ (log2Fuel fuel n + 1) := by
  induction fuel generalizing n with
  | zero => omega
  | succ fuel ih =>
    unfold log2Fuel
    split_ifs with h2
    · have := ih (n / 2) (by omega) (by omega)
      rw [pow_succ, pow_succ]
      constructor <;> omega
    · have : n = 1 := by omega
      subst this
      simp

/-- The integer binary logarithm: `2 ^ ilog2 n ≤ n < 2 ^ (ilog2 n + 1)`. -/
theorem ilog2_bounds (n : Nat) (h1 : 1 ≤ n) : 2 ^ ilog2 n ≤ n ∧ n < 2 ^ (ilog2 n + 1) :=
  log2Fuel_bounds n n h1 (le_refl _)

/-- The binary exponent of a non-zero rational brackets its magnitude. -/
theorem binade_bounds (x : ℚ) (hx : x ≠ 0) :
    (2 : ℚ) ^ binade x ≤ |x| ∧ |x| < (2 : ℚ) ^ (binade x + 1) := by
  have hnum : 1 ≤ x.num.natAbs := by
    have : x.num ≠ 0 := Rat.num_ne_zero.2 hx
    omega
  have hden : 1 ≤ x.den := x.den_pos
  obtain ⟨a1, a2⟩ := ilog2_bounds _ hnum
  obtain ⟨b1, b2⟩ := ilog2_bounds _ hden
  have habs : |x| = (x.num.natAbs : ℚ) / (x.den : ℚ) := by
    conv_lhs => rw [← Rat.num_div_den x]
    rw [abs_div, Nat.cast_natAbs, Nat.abs_cast]
    simp
  have hdpos : (0 : ℚ) < x.den := by exact_mod_cast x.den_pos
  have a1q : (2 : ℚ) ^ ilog2 x.num.natAbs ≤ x.num.natAbs := by exact_mod_cast a1
  have a2q : (x.num.natAbs : ℚ) < 2 ^ (ilog2 x.num.natAbs + 1) := by exact_mod_cast a2
  have b1q : (2 : ℚ) ^ ilog2 x.den ≤ x.den := by exact_mod_cast b1
  have b2q : (x.den : ℚ) < 2 ^ (ilog2 x.den + 1) := by exact_mod_cast b2
  have two : (2 : ℚ) ≠ 0 := by norm_num
  have e1 : (2 : ℚ) ^ ((ilog2 x.num.natAbs : ℤ) - (ilog2 x.den : ℤ) + 1)
      = 2 ^ (ilog2 x.num.natAbs + 1) / 2 ^ ilog2 x.den := by
    rw [show ((ilog2 x.num.natAbs : ℤ) - (ilog2 x.den : ℤ) + 1)
      = ((ilog2 x.num.natAbs + 1 : ℕ) : ℤ) - ((ilog2 x.den : ℕ) : ℤ) by push_cast; ring]
    rw [zpow_sub₀ two, zpow_natCast, zpow_natCast]
  have e2 : (2 : ℚ) ^ ((ilog2 x.num.natAbs : ℤ) - (ilog2 x.den : ℤ) - 1)
      = 2 ^ ilog2 x.num.natAbs / 2 ^ (ilog2 x.den + 1) := by
    rw [show ((ilog2 x.num.natAbs : ℤ) - (ilog2 x.den : ℤ) - 1)
      = ((ilog2 x.num.natAbs : ℕ) : ℤ) - ((ilog2 x.den + 1 : ℕ) : ℤ) by push_cast; ring]
    rw [zpow_sub₀ two, zpow_natCast, zpow_natCast]
  have up : |x| < (2 : ℚ) ^ ((ilog2 x.num.natAbs : ℤ) - (ilog2 x.den : ℤ) + 1) := by
    rw [e1, habs, div_lt_div_iff₀ hdpos (by positivity)]
    calc (x.num.natAbs : ℚ) * 2 ^ ilog2 x.den
        < 2 ^ (ilog2 x.num.natAbs + 1) * 2 ^ ilog2 x.den := by
          apply mul_lt_mul_of_pos_right a2q (by positivity)
      _ ≤ 2 ^ (ilog2 x.num.natAbs + 1) * x.den := by
          apply mul_le_mul_of_nonneg_left b1q (by positivity)
  have lo : (2 : ℚ) ^ ((ilog2 x.num.natAbs : ℤ) - (ilog2 x.den : ℤ) - 1) ≤ |x| := by
    rw [e2, habs, div_le_div_iff₀ (by positivity) hdpos]
    calc (2 : ℚ) ^ ilog2 x.num.natAbs * x.den
        ≤ x.num.natAbs * x.den := by
          apply mul_le_mul_of_nonneg_right a1q (le_of_lt hdpos)
      _ ≤ x.num.natAbs * 2 ^ (ilog2 x.den + 1) := by
          apply mul_le_mul_of_nonneg_left (le_of_lt b2q) (by positivity)
  unfold binade
  split_ifs with h
  · exact ⟨h, up⟩
  · push_neg at h
    refine ⟨lo, ?_⟩
    rw [show (ilog2 x.num.natAbs : ℤ) - (ilog2 x.den : ℤ) - 1 + 1
      = (ilog2 x.num.natAbs : ℤ) - (ilog2 x.den : ℤ) by ring]
    exact h

/-- Rounding to an integer, ties to even, is odd. -/
theorem roundHalfEven_neg (x : ℚ) : roundHalfEven (-x) = -roundHalfEven x := by
  by_cases hint : (⌊x⌋ : ℚ) = x
  · rw [← hint, ← Int.cast_neg, roundHalfEven_intCast, roundHalfEven_intCast]
  · have h1 := Int.floor_le x
    have h2 := Int.lt_floor_add_one x
    have hlt : (⌊x⌋ : ℚ) < x := lt_of_le_of_ne h1 hint
    have hfl : ⌊-x⌋ = -⌊x⌋ - 1 := by
      rw [Int.floor_eq_iff]
      push_cast
      constructor <;> linarith
    unfold roundHalfEven
    rw [hfl]
    push_cast
    by_cases c1 : x - ⌊x⌋ < 1 / 2
    · rw [if_pos c1, if_neg (by linarith), if_pos (by linarith)]
      ring
    · by_cases c2 : 1 / 2 < x - ⌊x⌋
      · rw [if_neg c1, if_pos c2, if_pos (by linarith)]
        ring
      · rw [if_neg c1, if_neg c2, if_neg (by linarith), if_neg (by linarith)]
        by_cases c3 : ⌊x⌋ % 2 = 0
        · rw [if_pos c3, if_neg (by omega)]
          ring
        · rw [if_neg c3, if_pos (by omega)]
          ring

/-- The binary exponent ignores the sign. -/
theorem binade_neg (x : ℚ) : binade (-x) = binade x := by
  simp [binade]

/-- Rounding to a binary format is odd. -/
theorem roundBinary_neg (p : ℕ) (emin : ℤ) (x : ℚ) :
    roundBinary p emin (-x) = -roundBinary p emin x := by
  unfold roundBinary
  by_cases hx : x = 0
  · simp [hx]
  · rw [if_neg hx, if_neg (by simpa using hx), binade_neg, neg_div, roundHalfEven_neg]
    push_cast
    ring

/-- Rounding to a binary format keeps a number that is not negative so. -/
theorem roundBinary_nonneg (p : ℕ) (emin : ℤ) (x : ℚ) (h : 0 ≤ x) :
    0 ≤ roundBinary p emin x := by
  unfold roundBinary
  split_ifs with hx
  · exact le_refl _
  · apply mul_nonneg _ (by positivity)
    have : (0 : ℤ) ≤ roundHalfEven (x / 2 ^ (max (binade x) emin - ((p : ℤ) - 1))) :=
      le_roundHalfEven (by simpa using div_nonneg h (by positivity))
    exact_mod_cast this

/-- Rounding to a binary format is monotone on the positive numbers. -/
theorem roundBinary_pos_mono (p : ℕ) (hp : 1 ≤ p) (emin : ℤ) (x y : ℚ) (hx : 0 < x)
    (hxy : x ≤ y) : roundBinary p emin x ≤ roundBinary p emin y := by
  have hy : 0 < y := lt_of_lt_of_le hx hxy
  obtain ⟨bx1, bx2⟩ := binade_bounds x (ne_of_gt hx)
  obtain ⟨by1, by2⟩ := binade_bounds y (ne_of_gt hy)
  rw [abs_of_pos hx] at bx1 bx2
  rw [abs_of_pos hy] at by1 by2
  have two : (1 : ℚ) < 2 := by norm_num
  have hb : binade x ≤ binade y := by
    have : (2 : ℚ) ^ binade x < 2 ^ (binade y + 1) := by linarith
    have := (zpow_lt_zpow_iff_right₀ two).1 this
    omega
  unfold roundBinary
  rw [if_neg (ne_of_gt hx), if_neg (ne_of_gt hy)]
  rcases lt_or_eq_of_le (max_le_max hb (le_refl emin)) with hlt | heq
  · -- different exponents: a power of two lies in between
    have hEy : max (binade y) emin = binade y := by
      rcases le_total (binade y) emin with h | h
      · rw [max_eq_right h] at hlt
        have := le_max_right (binade x) emin
        omega
      · exact max_eq_left h
    have two0 : (2 : ℚ) ≠ 0 := by norm_num
    have hpc : ((p : ℤ) - 1) = ((p - 1 : ℕ) : ℤ) := by omega
    -- the rounding of x is at most 2 ^ (Ex + 1)
    have hxup : (roundHalfEven (x / 2 ^ (max (binade x) emin - ((p : ℤ) - 1))) : ℚ)
        * 2 ^ (max (binade x) emin - ((p : ℤ) - 1)) ≤ 2 ^ (max (binade x) emin + 1) := by
      have hle : x / 2 ^ (max (binade x) emin - ((p : ℤ) - 1)) ≤ (((2 : ℤ) ^ p : ℤ) : ℚ) := by
        rw [div_le_iff₀ (by positivity)]
        push_cast
        rw [← zpow_natCast, ← zpow_add₀ two0]
        have : x < 2 ^ (max (binade x) emin + 1) :=
          lt_of_lt_of_le bx2 (zpow_le_zpow_right₀ (le_of_lt two) (by
            have := le_max_left (binade x) emin
            omega))
        rw [show (p : ℤ) + (max (binade x) emin - ((p : ℤ) - 1)) = max (binade x) emin + 1
          by ring]
        exact le_of_lt this
      have hr := roundHalfEven_le hle
      have hrq : (roundHalfEven (x / 2 ^ (max (binade x) emin - ((p : ℤ) - 1))) : ℚ)
          ≤ (2 : ℚ) ^ p := by exact_mod_cast hr
      calc _ ≤ (2 : ℚ) ^ p * 2 ^ (max (binade x) emin - ((p : ℤ) - 1)) :=
            mul_le_mul_of_nonneg_right hrq (by positivity)
        _ = 2 ^ (max (binade x) emin + 1) := by
            rw [← zpow_natCast, ← zpow_add₀ two0]
            congr 1
            ring
    -- the rounding of y is at least 2 ^ Ey
    have hylo : (2 : ℚ) ^ (max (binade y) emin)
        ≤ (roundHalfEven (y / 2 ^ (max (binade y) emin - ((p : ℤ) - 1))) : ℚ)
          * 2 ^ (max (binade y) emin - ((p : ℤ) - 1)) := by
      have hle : (((2 : ℤ) ^ (p - 1) : ℤ) : ℚ)
          ≤ y / 2 ^ (max (binade y) emin - ((p : ℤ) - 1)) := by
        rw [le_div_iff₀ (by positivity)]
        push_cast
        rw [← zpow_natCast, ← zpow_add₀ two0, ← hpc]
        rw [show ((p : ℤ) - 1) + (max (binade y) emin - ((p : ℤ) - 1)) = max (binade y) emin
          by ring, hEy]
        exact by1
      have hr := le_roundHalfEven hle
      have hrq : (2 : ℚ) ^ (p - 1)
          ≤ (roundHalfEven (y / 2 ^ (max (binade y) emin - ((p : ℤ) - 1))) : ℚ) := by
        exact_mod_cast hr
      calc (2 : ℚ) ^ (max (binade y) emin)
          = (2 : ℚ) ^ (p - 1) * 2 ^ (max (binade y) emin - ((p : ℤ) - 1)) := by
            rw [← zpow_natCast, ← zpow_add₀ two0, ← hpc]
            congr 1
            ring
        _ ≤ _ := mul_le_mul_of_nonneg_right hrq (by positivity)
    have hmid : (2 : ℚ) ^ (max (binade x) emin + 1) ≤ 2 ^ (max (binade y) emin) :=
      zpow_le_zpow_right₀ (le_of_lt two) (by omega)
    linarith
  · -- same exponent: same unit in the last place
    rw [heq]
    apply mul_le_mul_of_nonneg_right _ (by positivity)
    have : roundHalfEven (x / 2 ^ (max (binade y) emin - ((p : ℤ) - 1)))
        ≤ roundHalfEven (y / 2 ^ (max (binade y) emin - ((p : ℤ) - 1))) :=
      roundHalfEven_mono (div_le_div_of_nonneg_right hxy (by positivity))
    exact_mod_cast this

/-- Rounding to a binary format is monotone. -/
theorem roundBinary_mono (p : ℕ) (hp : 1 ≤ p) (emin : ℤ) (x y : ℚ) (hxy : x ≤ y) :
    roundBinary p emin x ≤ roundBinary p emin y := by
  rcases lt_trichotomy x 0 with hx | hx | hx
  · rcases lt_or_le y 0 with hy | hy
    · have := roundBinary_pos_mono p hp emin (-y) (-x) (by linarith) (by linarith)
      rw [roundBinary_neg, roundBinary_neg] at this
      linarith
    · have h1 := roundBinary_nonneg p emin (-x) (by linarith)
      rw [roundBinary_neg] at h1
      have h2 := roundBinary_nonneg p emin y hy
      linarith
  · subst hx
    have h2 := roundBinary_nonneg p emin y hxy
    simpa [roundBinary] using h2
  · exact roundBinary_pos_mono p hp emin x y hx hxy

/-- A number `m * 2 ^ k` with `|m| < 2 ^ p`, and `2 ^ k` not below the least spacing
of the format, is a number of the format: rounding leaves it alone. -/
theorem roundBinary_exact (p : ℕ) (emin : ℤ) (m k : ℤ) (hm : |m| < 2 ^ p)
    (hk : emin - ((p : ℤ) - 1) ≤ k) :
    roundBinary p emin ((m : ℚ) * 2 ^ k) = (m : ℚ) * 2 ^ k := by
  by_cases hx : (m : ℚ) * (2 : ℚ) ^ k = 0
  · simp [roundBinary, hx]
  · have two : (1 : ℚ) < 2 := by norm_num
    have two0 : (2 : ℚ) ≠ 0 := by norm_num
    obtain ⟨b1, -⟩ := binade_bounds _ hx
    have habs : |(m : ℚ) * (2 : ℚ) ^ k| < 2 ^ ((p : ℤ) + k) := by
      rw [abs_mul, abs_of_pos (show (0 : ℚ) < 2 ^ k by positivity), zpow_add₀ two0,
        zpow_natCast]
      apply mul_lt_mul_of_pos_right _ (by positivity)
      have : ((|m| : ℤ) : ℚ) < ((2 ^ p : ℤ) : ℚ) := by exact_mod_cast hm
      simpa using this
    have hb : binade ((m : ℚ) * 2 ^ k) < (p : ℤ) + k :=
      (zpow_lt_zpow_iff_right₀ two).1 (lt_of_le_of_lt b1 habs)
    have hE : max (binade ((m : ℚ) * 2 ^ k)) emin - ((p : ℤ) - 1) ≤ k := by
      rcases le_total (binade ((m : ℚ) * 2 ^ k)) emin with h | h
      · rw [max_eq_right h]
        exact hk
      · rw [max_eq_left h]
        omega
    obtain ⟨j, hj⟩ : ∃ j : ℕ,
        k = max (binade ((m : ℚ) * 2 ^ k)) emin - ((p : ℤ) - 1) + (j : ℤ) :=
      ⟨(k - (max (binade ((m : ℚ) * 2 ^ k)) emin - ((p : ℤ) - 1))).toNat, by omega⟩
    unfold roundBinary
    rw [if_neg hx]
    have hdiv : (m : ℚ) * 2 ^ k / 2 ^ (max (binade ((m : ℚ) * 2 ^ k)) emin - ((p : ℤ) - 1))
        = ((m * 2 ^ j : ℤ) : ℚ) := by
      rw [div_eq_iff (by positivity)]
      push_cast
      rw [mul_assoc, ← zpow_natCast, ← zpow_add₀ two0]
      congr 2
      omega
    rw [hdiv, roundHalfEven_intCast]
    push_cast
    rw [mul_assoc, ← zpow_natCast, ← zpow_add₀ two0]
    congr 2
    omega

/-- Rounding to `float` is monotone. -/
theorem toFloat_mono {x y : ℚ} (h : x ≤ y) : toFloat x ≤ toFloat y :=
  roundBinary_mono 24 (by norm_num) _ x y h

/-- Rounding to `double` is monotone. -/
theorem toDouble_mono {x y : ℚ} (h : x ≤ y) : toDouble x ≤ toDouble y :=
  roundBinary_mono 53 (by norm_num) _ x y h

/-- A larger bin content gives a smaller (or the same) transformed content. -/
theorem hillContent_anti (offset chi2min : ℚ) {v w : ℚ} (h : v ≤ w) :
    hillContent offset chi2min w ≤ hillContent offset chi2min v := by
  unfold hillContent
  apply toFloat_mono
  apply toDouble_mono
  have := toDouble_mono (show -w + offset ≤ -v + offset by linarith)
  linarith

/-- The numbers `m * 2 ^ k` with `|m| < 2 ^ 24` and `k ≥ -149` are floats. -/
theorem toFloat_dyadic (m k : ℤ) (hm : |m| < 2 ^ 24) (hk : -149 ≤ k) :
    toFloat ((m : ℚ) * 2 ^ k) = (m : ℚ) * 2 ^ k :=
  roundBinary_exact 24 (-126) m k hm (by norm_num; omega)

/-- The numbers `m * 2 ^ k` with `|m| < 2 ^ 53` and `k ≥ -1074` are doubles. -/
theorem toDouble_dyadic (m k : ℤ) (hm : |m| < 2 ^ 53) (hk : -1074 ≤ k) :
    toDouble ((m : ℚ) * 2 ^ k) = (m : ℚ) * 2 ^ k :=
  roundBinary_exact 53 (-1022) m k hm (by norm_num; omega)

/-- On multiples of one power of two, with small multipliers, the evaluation is
exact. -/
theorem hillContent_dyadic (a b c k : ℤ) (hk : -149 ≤ k) (h1 : |(-a + b)| < 2 ^ 53)
    (h2 : |(-a + b + c)| < 2 ^ 24) :
    hillContent ((b : ℚ) * 2 ^ k) ((c : ℚ) * 2 ^ k) ((a : ℚ) * 2 ^ k)
      = (b : ℚ) * 2 ^ k + (c : ℚ) * 2 ^ k - (a : ℚ) * 2 ^ k := by
  unfold hillContent
  have e1 : -((a : ℚ) * 2 ^ k) + (b : ℚ) * 2 ^ k = (((-a + b : ℤ)) : ℚ) * 2 ^ k := by
    push_cast
    ring
  rw [e1, toDouble_dyadic _ k h1 (by omega)]
  have e2 : (((-a + b : ℤ)) : ℚ) * 2 ^ k + (c : ℚ) * 2 ^ k
      = (((-a + b + c : ℤ)) : ℚ) * 2 ^ k := by
    push_cast
    ring
  rw [e2, toDouble_dyadic _ k (lt_trans h2 (by norm_num)) (by omega), toFloat_dyadic _ k h2 hk]
  push_cast
  ring

/-- Rounding to a binary format does not cross a power of two of the format. -/
theorem roundBinary_abs_le (p : ℕ) (hp : 1 ≤ p) (emin : ℤ) (x : ℚ) (e : ℤ)
    (he : emin - ((p : ℤ) - 1) ≤ e) (hx : |x| ≤ 2 ^ e) : |roundBinary p emin x| ≤ 2 ^ e := by
  have h1 : |(1 : ℤ)| < 2 ^ p := by
    rw [abs_one]
    exact one_lt_pow₀ (by norm_num) (by omega)
  have hpow : roundBinary p emin ((2 : ℚ) ^ e) = 2 ^ e := by
    have := roundBinary_exact p emin 1 e h1 he
    simpa using this
  obtain ⟨hlo, hhi⟩ := abs_le.1 hx
  rw [abs_le]
  constructor
  · have := roundBinary_mono p hp emin _ _ hlo
    rw [roundBinary_neg, hpow] at this
    exact this
  · have := roundBinary_mono p hp emin _ _ hhi
    rw [hpow] at this
    exact this

/-- Rounding to `float` does not cross a power of two. -/
theorem toFloat_abs_le (x : ℚ) (e : ℤ) (he : -149 ≤ e) (hx : |x| ≤ 2 ^ e) :
    |toFloat x| ≤ 2 ^ e :=
  roundBinary_abs_le 24 (by norm_num) _ x e (by norm_num; omega) hx

/-- Rounding to `double` does not cross a power of two. -/
theorem toDouble_abs_le (x : ℚ) (e : ℤ) (he : -1074 ≤ e) (hx : |x| ≤ 2 ^ e) :
    |toDouble x| ≤ 2 ^ e :=
  roundBinary_abs_le 53 (by norm_num) _ x e (by norm_num; omega) hx

/-- With offset, minimum and content below `2 ^ 125` in magnitude no step of the
evaluation exceeds `2 ^ 127`: nothing overflows. -/
theorem hillContent_abs_le (offset chi2min v : ℚ) (ho : |offset| ≤ 2 ^ 125)
    (hc : |chi2min| ≤ 2 ^ 125) (hv : |v| ≤ 2 ^ 125) :
    |hillContent offset chi2min v| ≤ 2 ^ 127 := by
  unfold hillContent
  have s1 : |(-v + offset)| ≤ (2 : ℚ) ^ (126 : ℤ) := by
    have := abs_add (-v) offset
    rw [abs_neg] at this
    have e : (2 : ℚ) ^ (126 : ℤ) = 2 ^ 125 + 2 ^ 125 := by norm_num
    linarith
  have s2 := toDouble_abs_le _ 126 (by norm_num) s1
  have s3 : |toDouble (-v + offset) + chi2min| ≤ (2 : ℚ) ^ (127 : ℤ) := by
    have := abs_add (toDouble (-v + offset)) chi2min
    have e : (2 : ℚ) ^ (127 : ℤ) = 2 ^ (126 : ℤ) + 2 ^ 125 + 2 ^ 125 := by norm_num
    have : (0 : ℚ) ≤ 2 ^ 125 := by positivity
    linarith
  have s4 := toDouble_abs_le _ 127 (by norm_num) s3
  have s5 := toFloat_abs_le _ 127 (by norm_num) s4
  have e : (2 : ℚ) ^ (127 : ℤ) = 2 ^ 127 := by norm_num
  rw [← e]
  exact s5

/-! ## Lemmas on the loops and on the grid -/

/-- A loop of no iterations leaves the state alone. -/
theorem forUp_zero {σ : Type} (lo : Nat) (body : Nat → σ → σ) (s : σ) :
    forUp lo 0 body s = s := rfl

/-- The last iteration of a loop, split off. -/
theorem forUp_succ {σ : Type} (lo n : Nat) (body : Nat → σ → σ) (s : σ) :
    forUp lo (n + 1) body s = body (lo + n) (forUp lo n body s) := by
  simp [forUp, List.range'_concat]

namespace TH2F

/-- Writing a bin leaves the x axis alone. -/
theorem SetBinContent_fXaxis (h : TH2F) (ix iy : Nat) (v : ℚ) :
    (h.SetBinContent ix iy v).fXaxis = h.fXaxis := rfl

/-- Writing a bin leaves the y axis alone. -/
theorem SetBinContent_fYaxis (h : TH2F) (ix iy : Nat) (v : ℚ) :
    (h.SetBinContent ix iy v).fYaxis = h.fYaxis := rfl

/-- The bin contents are the values of the bins `1..Nx` x `1..Ny`. -/
theorem mem_binContents (h : TH2F) (v : ℚ) :
    v ∈ h.binContents ↔ ∃ ix iy, (1 ≤ ix ∧ ix ≤ h.fXaxis.fNbins) ∧
      (1 ≤ iy ∧ iy ≤ h.fYaxis.fNbins) ∧ h.fArray ix iy = v := by
  simp only [binContents, List.mem_flatMap, List.mem_map, List.mem_range'_1]
  constructor
  · rintro ⟨ix, hx, iy, hy, rfl⟩
    exact ⟨ix, iy, ⟨hx.1, by omega⟩, ⟨hy.1, by omega⟩, rfl⟩
  · rintro ⟨ix, iy, hx, hy, rfl⟩
    exact ⟨ix, ⟨hx.1, by omega⟩, iy, ⟨hy.1, by omega⟩, rfl⟩

/-- A running minimum is below its start value and below every element. -/
theorem foldl_min_le (vs : List ℚ) (v : ℚ) :
    vs.foldl min v ≤ v ∧ ∀ x ∈ vs, vs.foldl min v ≤ x := by
  induction vs generalizing v with
  | nil => simp
  | cons a as ih =>
    simp only [List.foldl_cons, List.mem_cons, forall_eq_or_imp]
    obtain ⟨h1, h2⟩ := ih (min v a)
    exact ⟨h1.trans (min_le_left _ _), h1.trans (min_le_right _ _), h2⟩

/-- A running minimum is its start value or one of the elements. -/
theorem foldl_min_mem (vs : List ℚ) (v : ℚ) : vs.foldl min v ∈ v :: vs := by
  induction vs generalizing v with
  | nil => simp
  | cons a as ih =>
    simp only [List.foldl_cons]
    have := ih (min v a)
    rcases List.mem_cons.1 this with h | h
    · rw [h]
      rcases min_choice v a with h' | h' <;> simp [h']
    · simp [h]

/-- The minimum is a lower bound of the bins. -/
theorem GetMinimum_le (h : TH2F) (ix iy : Nat) (hx : 1 ≤ ix ∧ ix ≤ h.fXaxis.fNbins)
    (hy : 1 ≤ iy ∧ iy ≤ h.fYaxis.fNbins) : h.GetMinimum ≤ h.fArray ix iy := by
  have hmem : h.fArray ix iy ∈ h.binContents :=
    (mem_binContents h _).2 ⟨ix, iy, hx, hy, rfl⟩
  unfold GetMinimum
  cases hb : h.binContents with
  | nil => simp [hb] at hmem
  | cons v vs =>
    rw [hb] at hmem
    rcases List.mem_cons.1 hmem with e | e
    · rw [e]
      exact (foldl_min_le vs v).1
    · exact (foldl_min_le vs v).2 _ e

/-- The minimum of a grid with at least one bin is the content of a bin. -/
theorem GetMinimum_attained (h : TH2F) (hx : 1 ≤ h.fXaxis.fNbins) (hy : 1 ≤ h.fYaxis.fNbins) :
    ∃ ix iy, (1 ≤ ix ∧ ix ≤ h.fXaxis.fNbins) ∧ (1 ≤ iy ∧ iy ≤ h.fYaxis.fNbins) ∧
      h.fArray ix iy = h.GetMinimum := by
  have hmem : h.fArray 1 1 ∈ h.binContents :=
    (mem_binContents h _).2 ⟨1, 1, ⟨le_refl _, hx⟩, ⟨le_refl _, hy⟩, rfl⟩
  apply (mem_binContents h _).1
  unfold GetMinimum
  cases hb : h.binContents with
  | nil => simp [hb] at hmem
  | cons v vs => exact foldl_min_mem vs v

end TH2F

namespace ConfidenceContours

/-- The inner loop of `addBoundaryBins`, after `n` iterations in column `ix`. -/
theorem addBoundaryBins_inner (boundary : ℚ) (ix n : Nat) (s : PadState) :
    forUp 1 n (fun iy s => addBoundaryBinsBody boundary ix iy s) s =
      { hist := s.hist
        hBoundaries := { s.hBoundaries with
          fArray := fun x y =>
            if x = ix ∧ 1 ≤ y ∧ y ≤ n then
              padCell s.hist s.hBoundaries.fXaxis.fNbins s.hBoundaries.fYaxis.fNbins boundary x y
            else s.hBoundaries.fArray x y } } := by
  induction n with
  | zero =>
    simp only [forUp_zero]
    cases s with
    | mk hist hB =>
      cases hB
      simp
      funext x y
      rw [if_neg]
      omega
  | succ n ih =>
    rw [forUp_succ, ih]
    simp only [addBoundaryBinsBody, TH2F.SetBinContent, TH2F.GetXaxis, TH2F.GetYaxis,
      TAxis.GetNbins, TH2F.GetBinContent]
    split_ifs with hc
    · congr 2
      funext x y
      by_cases hxy : x = ix ∧ y = 1 + n
      · obtain ⟨rfl, rfl⟩ := hxy
        simp only [padCell]
        rw [if_pos hc]
        rw [if_pos (⟨trivial, by omega, by omega⟩ : True ∧ 1 ≤ 1 + n ∧ 1 + n ≤ n + 1),
          if_pos (⟨trivial, trivial⟩ : True ∧ True)]
      · rw [if_neg hxy]
        by_cases h1 : x = ix ∧ 1 ≤ y ∧ y ≤ n
        · rw [if_pos h1, if_pos ⟨h1.1, h1.2.1, by omega⟩]
        · rw [if_neg h1, if_neg (by omega)]
    · congr 2
      funext x y
      by_cases hxy : x = ix ∧ y = 1 + n
      · obtain ⟨rfl, rfl⟩ := hxy
        simp only [padCell]
        rw [if_neg hc]
        rw [if_pos (⟨trivial, by omega, by omega⟩ : True ∧ 1 ≤ 1 + n ∧ 1 + n ≤ n + 1),
          if_pos (⟨trivial, trivial⟩ : True ∧ True)]
      · rw [if_neg hxy]
        by_cases h1 : x = ix ∧ 1 ≤ y ∧ y ≤ n
        · rw [if_pos h1, if_pos ⟨h1.1, h1.2.1, by omega⟩]
        · rw [if_neg h1, if_neg (by omega)]

/-- The outer loop of `addBoundaryBins`, after `m` columns. -/
theorem addBoundaryBins_outer (boundary : ℚ) (m : Nat) (s : PadState) :
    forUp 1 m (fun ix s => forUp 1 s.hBoundaries.GetYaxis.GetNbins
        (fun iy s => addBoundaryBinsBody boundary ix iy s) s) s =
      { hist := s.hist
        hBoundaries := { s.hBoundaries with
          fArray := fun x y =>
            if (1 ≤ x ∧ x ≤ m) ∧ 1 ≤ y ∧ y ≤ s.hBoundaries.fYaxis.fNbins then
              padCell s.hist s.hBoundaries.fXaxis.fNbins s.hBoundaries.fYaxis.fNbins boundary x y
            else s.hBoundaries.fArray x y } } := by
  induction m with
  | zero =>
    simp only [forUp_zero]
    cases s with
    | mk hist hB =>
      cases hB
      simp
      funext x y
      rw [if_neg]
      omega
  | succ m ih =>
    rw [forUp_succ, ih, addBoundaryBins_inner]
    simp only [TH2F.GetYaxis, TAxis.GetNbins]
    congr 2
    funext x y
    by_cases h1 : x = 1 + m ∧ 1 ≤ y ∧ y ≤ s.hBoundaries.fYaxis.fNbins
    · rw [if_pos h1, if_pos ⟨⟨by omega, by omega⟩, h1.2⟩]
    · rw [if_neg h1]
      by_cases h2 : (1 ≤ x ∧ x ≤ m) ∧ 1 ≤ y ∧ y ≤ s.hBoundaries.fYaxis.fNbins
      · rw [if_pos h2, if_pos ⟨⟨h2.1.1, by omega⟩, h2.2⟩]
      · rw [if_neg h2, if_neg (by omega)]

/-- The result of `addBoundaryBins` in closed form. -/
theorem addBoundaryBins_eq (hist : TH2F) :
    addBoundaryBins hist =
      { hist := hist
        hBoundaries :=
          { fXaxis := ⟨hist.fXaxis.fNbins + 2, hist.fXaxis.fXmin - hist.fXaxis.GetBinWidth 1,
              hist.fXaxis.fXmax + hist.fXaxis.GetBinWidth 1⟩
            fYaxis := ⟨hist.fYaxis.fNbins + 2, hist.fYaxis.fXmin - hist.fYaxis.GetBinWidth 1,
              hist.fYaxis.fXmax + hist.fYaxis.GetBinWidth 1⟩
            fArray := fun x y =>
              if (1 ≤ x ∧ x ≤ hist.fXaxis.fNbins + 2) ∧ 1 ≤ y ∧ y ≤ hist.fYaxis.fNbins + 2 then
                padCell hist (hist.fXaxis.fNbins + 2) (hist.fYaxis.fNbins + 2) hist.GetMinimum x y
              else 0
            fContour := [] } } := by
  unfold addBoundaryBins
  simp only [addBoundaryBins_outer]
  rfl

/-- The inner loop of `transformChi2valleyToHill`, after `n` iterations in column
`ix`. -/
theorem transform_inner (offset chi2min : ℚ) (ix n : Nat) (h : TH2F) :
    forUp 1 n (fun iy h => transformBody offset chi2min ix iy h) h =
      { h with fArray := fun x y =>
          if x = ix ∧ 1 ≤ y ∧ y ≤ n then hillContent offset chi2min (h.fArray x y)
          else h.fArray x y } := by
  induction n with
  | zero =>
    simp only [forUp_zero]
    cases h
    simp
    funext x y
    rw [if_neg]
    omega
  | succ n ih =>
    rw [forUp_succ, ih]
    simp only [transformBody, TH2F.SetBinContent, TH2F.GetBinContent]
    congr 1
    funext x y
    by_cases hxy : x = ix ∧ y = 1 + n
    · obtain ⟨rfl, rfl⟩ := hxy
      have e1 : ¬ (1 + n ≤ n) := by omega
      have e2 : 1 + n ≤ n + 1 := by omega
      simp [e1, e2]
    · rw [if_neg hxy]
      by_cases h1 : x = ix ∧ 1 ≤ y ∧ y ≤ n
      · rw [if_pos h1, if_pos ⟨h1.1, h1.2.1, by omega⟩]
      · rw [if_neg h1, if_neg (by omega)]

/-- The outer loop of `transformChi2valleyToHill`, after `m` columns. -/
theorem transform_outer (offset chi2min : ℚ) (m : Nat) (h : TH2F) :
    forUp 1 m (fun ix h => forUp 1 h.GetYaxis.GetNbins
        (fun iy h => transformBody offset chi2min ix iy h) h) h =
      { h with fArray := fun x y =>
          if (1 ≤ x ∧ x ≤ m) ∧ 1 ≤ y ∧ y ≤ h.fYaxis.fNbins then
            hillContent offset chi2min (h.fArray x y)
          else h.fArray x y } := by
  induction m with
  | zero =>
    simp only [forUp_zero]
    cases h
    simp
    funext x y
    rw [if_neg]
    omega
  | succ m ih =>
    rw [forUp_succ, ih, transform_inner]
    simp only [TH2F.GetYaxis, TAxis.GetNbins]
    congr 1
    funext x y
    by_cases h1 : x = 1 + m ∧ 1 ≤ y ∧ y ≤ h.fYaxis.fNbins
    · rw [if_pos h1, if_neg (by omega), if_pos ⟨⟨by omega, by omega⟩, h1.2⟩]
    · rw [if_neg h1]
      by_cases h2 : (1 ≤ x ∧ x ≤ m) ∧ 1 ≤ y ∧ y ≤ h.fYaxis.fNbins
      · rw [if_pos h2, if_pos ⟨⟨h2.1.1, by omega⟩, h2.2⟩]
      · rw [if_neg h2, if_neg (by omega)]

/-- The result of `transformChi2valleyToHill` in closed form. -/
theorem transformChi2valleyToHill_eq (hist : TH2F) (offset : ℚ) :
    transformChi2valleyToHill hist offset =
      { hist with fArray := fun x y =>
          if (1 ≤ x ∧ x ≤ hist.fXaxis.fNbins) ∧ 1 ≤ y ∧ y ≤ hist.fYaxis.fNbins then
            hillContent offset (toFloat hist.GetMinimum) (hist.fArray x y)
          else hist.fArray x y } := by
  unfold transformChi2valleyToHill
  simp only [transform_outer]
  rfl

end ConfidenceContours

/-! ## The claims -/

namespace ConfidenceContours

/-- The index 3 of the five ring-sets, as a number. -/
theorem fin5_val_three : ((3 : Fin 5) : Nat) = 3 := rfl

/-- The index 4 of the five ring-sets, as a number. -/
theorem fin5_val_four : ((4 : Fin 5) : Nat) = 4 := rfl

/-- C1 (as stated, refuted): with a single non-empty ring-set, placed at index 4
(the case `k = 1`), the only contour created is labelled sigma -3, not the
claimed `5 - 1 + 1 = 5`. -/
theorem sigma_tight_end_counterexample :
    (∀ ic : Fin 5, (ringSetsOf [false, false, false, false, true] ic).IsEmpty = false
        ↔ 5 - 1 ≤ ic.val) ∧
    sigmaLabels (sigmaAssignment argPlain (ringSetsOf [false, false, false, false, true])) = [-3] ∧
    sigmaLabels (sigmaAssignment argPlain (ringSetsOf [false, false, false, false, true]))
      ≠ (List.range 1).map (fun j => (5 : Int) - 1 + 1 + j) := by
  decide

/-- C1 (amended): when exactly `k` ring-sets are non-empty and they sit at the
indices `5-k..4`, the sigma assignment creates exactly `k` contours and their
labels, in the order the loop `ic = 4` down to `0` visits them, are
`k-4, k-3, ..., 2k-5`. -/
theorem sigma_tight_end (arg : OptParser) (contours : TObjArray) (k : Nat) (hk : k ≤ 5)
    (h : ∀ ic : Fin 5, (contours ic).IsEmpty = false ↔ 5 - k ≤ ic.val) :
    (sigmaAssignment arg contours).length = k ∧
    sigmaLabels (sigmaAssignment arg contours)
      = (List.range k).map (fun j => (k : Int) - 4 + j) := by
  have h0 : (contours 0).IsEmpty = false ↔ 5 - k ≤ 0 := h 0
  have h1 : (contours 1).IsEmpty = false ↔ 5 - k ≤ 1 := h 1
  have h2 : (contours 2).IsEmpty = false ↔ 5 - k ≤ 2 := h 2
  have h3 : (contours 3).IsEmpty = false ↔ 5 - k ≤ 3 := h 3
  have h4 : (contours 4).IsEmpty = false ↔ 5 - k ≤ 4 := h 4
  interval_cases k <;> simp at h0 h1 h2 h3 h4 <;>
    simp [sigmaAssignment, assignSigma, countEmptyContours, icDown, sigmaLabels, Contour.setSigma,
      Contour.new, List.range, List.range.loop, fin5_val_three, fin5_val_four,
      h0, h1, h2, h3, h4]

/-- C1 (amended), at two non-empty ring-sets placed at the indices 3 and 4: two
contours, labelled -2 and -1. -/
theorem sigma_tight_end_witness :
    (sigmaAssignment argPlain (ringSetsOf [false, false, false, true, true])).length = 2 ∧
    sigmaLabels (sigmaAssignment argPlain (ringSetsOf [false, false, false, true, true]))
      = (List.range 2).map (fun j => ((2 : Nat) : Int) - 4 + j) :=
  sigma_tight_end argPlain (ringSetsOf [false, false, false, true, true]) 2 (by decide)
    (by decide)

/-- C2: when the non-empty ring-sets are exactly those at the indices `0..k-1`
(`k ≤ 5`), the stored list has length `k`, its entry `i` is labelled sigma
`i+1`, the contour built from ring-set `ic` is labelled sigma `k - ic` (it is
stored at position `k-1-ic`), and no stored contour has a smaller sigma than
entry 0. -/
theorem sigma_packed (arg : OptParser) (contours : TObjArray) (k : Nat) (hk : k ≤ 5)
    (h : ∀ ic : Fin 5, (contours ic).IsEmpty = false ↔ ic.val < k) :
    (sigmaAssignment arg contours).length = k ∧
    (∀ i : Nat, i < k →
      ((sigmaAssignment arg contours)[i]?).map Contour.m_sigma = some ((i : Int) + 1)) ∧
    (∀ ic : Fin 5, ic.val < k →
      (sigmaAssignment arg contours)[k - 1 - ic.val]?
        = some ((Contour.new arg (contours ic)).setSigma ((k : Int) - (ic.val : Int)))) ∧
    (∀ c0, (sigmaAssignment arg contours)[0]? = some c0 →
      ∀ c ∈ sigmaAssignment arg contours, c0.m_sigma ≤ c.m_sigma) := by
  have h0 : (contours 0).IsEmpty = false ↔ 0 < k := h 0
  have h1 : (contours 1).IsEmpty = false ↔ 1 < k := h 1
  have h2 : (contours 2).IsEmpty = false ↔ 2 < k := h 2
  have h3 : (contours 3).IsEmpty = false ↔ 3 < k := h 3
  have h4 : (contours 4).IsEmpty = false ↔ 4 < k := h 4
  refine ⟨?_, ?_, ?_, ?_⟩
  · interval_cases k <;> simp at h0 h1 h2 h3 h4 <;>
      simp [sigmaAssignment, assignSigma, countEmptyContours, icDown, Contour.setSigma,
        Contour.new, fin5_val_three, fin5_val_four, h0, h1, h2, h3, h4]
  · intro i hi
    interval_cases k <;> simp at h0 h1 h2 h3 h4 <;> interval_cases i <;>
      simp [sigmaAssignment, assignSigma, countEmptyContours, icDown, Contour.setSigma,
        Contour.new, fin5_val_three, fin5_val_four, h0, h1, h2, h3, h4]
  · intro ic hic
    have e0 : ((0 : Fin 5) : Nat) = 0 := rfl
    have e1 : ((1 : Fin 5) : Nat) = 1 := rfl
    have e2 : ((2 : Fin 5) : Nat) = 2 := rfl
    fin_cases ic <;> interval_cases k <;> simp at hic h0 h1 h2 h3 h4 <;>
      simp [sigmaAssignment, assignSigma, countEmptyContours, icDown, Contour.setSigma,
        Contour.new, fin5_val_three, fin5_val_four, h0, h1, h2, h3, h4]
  · interval_cases k <;> simp at h0 h1 h2 h3 h4 <;>
      simp [sigmaAssignment, assignSigma, countEmptyContours, icDown, Contour.setSigma,
        Contour.new, fin5_val_three, fin5_val_four, h0, h1, h2, h3, h4]

/-- C2, at two non-empty ring-sets placed at the indices 0 and 1. -/
theorem sigma_packed_witness :
    (sigmaAssignment argPlain (ringSetsOf [true, true, false, false, false])).length = 2 ∧
    (∀ i : Nat, i < 2 →
      ((sigmaAssignment argPlain (ringSetsOf [true, true, false, false, false]))[i]?).map
        Contour.m_sigma = some ((i : Int) + 1)) ∧
    (∀ ic : Fin 5, ic.val < 2 →
      (sigmaAssignment argPlain (ringSetsOf [true, true, false, false, false]))[2 - 1 - ic.val]?
        = some ((Contour.new argPlain
            (ringSetsOf [true, true, false, false, false] ic)).setSigma
              (((2 : Nat) : Int) - (ic.val : Int)))) ∧
    (∀ c0, (sigmaAssignment argPlain (ringSetsOf [true, true, false, false, false]))[0]?
        = some c0 →
      ∀ c ∈ sigmaAssignment argPlain (ringSetsOf [true, true, false, false, false]),
        c0.m_sigma ≤ c.m_sigma) :=
  sigma_packed argPlain (ringSetsOf [true, true, false, false, false]) 2 (by decide)
    (by decide)

/-- Packing, spelled out on neighbouring indices. -/
theorem packed_iff_adjacent (contours : TObjArray) :
    packed contours ↔
      ((contours 1).IsEmpty = false → (contours 0).IsEmpty = false) ∧
      ((contours 2).IsEmpty = false → (contours 1).IsEmpty = false) ∧
      ((contours 3).IsEmpty = false → (contours 2).IsEmpty = false) ∧
      ((contours 4).IsEmpty = false → (contours 3).IsEmpty = false) := by
  constructor
  · intro h
    exact ⟨h 0 1 (by decide), h 1 2 (by decide), h 2 3 (by decide), h 3 4 (by decide)⟩
  · rintro ⟨a, b, c, d⟩ i j hij hj
    fin_cases i <;> fin_cases j <;> first | exact absurd hij (by decide) | skip
    all_goals simp only [Fin.zero_eta, Fin.mk_one, Fin.reduceFinMk] at hj ⊢
    all_goals tauto

/-- C3 (as stated, refuted): with ring-sets 0 and 2 non-empty and ring-set 1
empty between them, the contours created are labelled sigma 0 and 2, and 0 is
outside `1..5`. -/
theorem sigma_range_counterexample :
    sigmaLabels (sigmaAssignment argPlain (ringSetsOf [true, false, true, false, false]))
      = [0, 2] ∧
    ¬ (∀ c ∈ sigmaAssignment argPlain (ringSetsOf [true, false, true, false, false]),
        1 ≤ c.m_sigma ∧ c.m_sigma ≤ 5) := by
  decide

/-- C3 (amended): for every array of five ring-sets, every contour the sigma
assignment creates is tagged with an integer sigma in `-3..5`; all the tags lie
in `1..5` exactly when the ring-sets are packed (no empty ring-set at an index
below a non-empty one). -/
theorem sigma_range (arg : OptParser) (contours : TObjArray) :
    (∀ c ∈ sigmaAssignment arg contours, -3 ≤ c.m_sigma ∧ c.m_sigma ≤ 5) ∧
    ((∀ c ∈ sigmaAssignment arg contours, 1 ≤ c.m_sigma ∧ c.m_sigma ≤ 5) ↔
      packed contours) := by
  rw [packed_iff_adjacent]
  rcases h0 : (contours 0).IsEmpty <;> rcases h1 : (contours 1).IsEmpty <;>
  rcases h2 : (contours 2).IsEmpty <;> rcases h3 : (contours 3).IsEmpty <;>
  rcases h4 : (contours 4).IsEmpty <;>
    simp [sigmaAssignment, assignSigma, countEmptyContours, icDown, Contour.setSigma,
      Contour.new, fin5_val_three, fin5_val_four, h0, h1, h2, h3, h4]

/-- C4: for a grid with `Nx ≥ 1` and `Ny ≥ 1` bins, every bin of the grid
returned by `addBoundaryBins` on the outer ring (`ix = 1`, `ix = Nx+2`,
`iy = 1` or `iy = Ny+2`) holds the minimum bin content of the source grid: a
lower bound of all source bins that one of them attains. -/
theorem addBoundaryBins_ring (hist : TH2F) (hx : 1 ≤ hist.GetNbinsX) (hy : 1 ≤ hist.GetNbinsY)
    (ix iy : Nat) (hix : 1 ≤ ix ∧ ix ≤ hist.GetNbinsX + 2)
    (hiy : 1 ≤ iy ∧ iy ≤ hist.GetNbinsY + 2)
    (hring : ix = 1 ∨ ix = hist.GetNbinsX + 2 ∨ iy = 1 ∨ iy = hist.GetNbinsY + 2) :
    (addBoundaryBins hist).hBoundaries.GetBinContent ix iy = hist.GetMinimum ∧
    (∀ jx jy, 1 ≤ jx ∧ jx ≤ hist.GetNbinsX → 1 ≤ jy ∧ jy ≤ hist.GetNbinsY →
      hist.GetMinimum ≤ hist.GetBinContent jx jy) ∧
    (∃ jx jy, (1 ≤ jx ∧ jx ≤ hist.GetNbinsX) ∧ (1 ≤ jy ∧ jy ≤ hist.GetNbinsY) ∧
      hist.GetBinContent jx jy = hist.GetMinimum) := by
  simp only [TH2F.GetNbinsX, TH2F.GetNbinsY, TAxis.GetNbins, TH2F.GetBinContent] at *
  refine ⟨?_, fun jx jy hjx hjy => TH2F.GetMinimum_le hist jx jy hjx hjy,
    TH2F.GetMinimum_attained hist hx hy⟩
  rw [addBoundaryBins_eq]
  simp only
  rw [if_pos ⟨hix, hiy⟩, padCell, if_pos hring]

/-- C4, at bin (4, 2) of the padded 2 x 3 sample grid (the last column). -/
theorem addBoundaryBins_ring_witness :
    (addBoundaryBins gridSample).hBoundaries.GetBinContent 4 2 = gridSample.GetMinimum ∧
    (∀ jx jy, 1 ≤ jx ∧ jx ≤ gridSample.GetNbinsX → 1 ≤ jy ∧ jy ≤ gridSample.GetNbinsY →
      gridSample.GetMinimum ≤ gridSample.GetBinContent jx jy) ∧
    (∃ jx jy, (1 ≤ jx ∧ jx ≤ gridSample.GetNbinsX) ∧ (1 ≤ jy ∧ jy ≤ gridSample.GetNbinsY) ∧
      gridSample.GetBinContent jx jy = gridSample.GetMinimum) :=
  addBoundaryBins_ring gridSample (by decide) (by decide) 4 2 (by decide) (by decide)
    (by decide)

/-- Shifting the indices of a mapped range by one. -/
theorem map_pred_range' (f : Nat → α) (s n : Nat) :
    (List.range' (s + 1) n).map (fun i => f (i - 1)) = (List.range' s n).map f := by
  induction n generalizing s with
  | zero => rfl
  | succ n ih => simp [List.range'_succ, ih]

/-- Shifting the indices of a flat-mapped range by one. -/
theorem flatMap_pred_range' (f : Nat → List α) (s n : Nat) :
    (List.range' (s + 1) n).flatMap (fun i => f (i - 1)) = (List.range' s n).flatMap f := by
  induction n generalizing s with
  | zero => rfl
  | succ n ih => simp [List.range'_succ, ih]

/-- C5: every bin `(ix, iy)` with `2 ≤ ix ≤ Nx+1` and `2 ≤ iy ≤ Ny+1` of the grid
returned by `addBoundaryBins` holds the content of the source bin
`(ix-1, iy-1)`; equivalently every source bin `(i, j)` reappears at
`(i+1, j+1)`; and the interior of the padded grid, read column by column, is
the list of source bins: none is lost or duplicated. -/
theorem addBoundaryBins_interior (hist : TH2F) :
    (∀ ix iy, 2 ≤ ix ∧ ix ≤ hist.GetNbinsX + 1 → 2 ≤ iy ∧ iy ≤ hist.GetNbinsY + 1 →
      (addBoundaryBins hist).hBoundaries.GetBinContent ix iy
        = hist.GetBinContent (ix - 1) (iy - 1)) ∧
    (∀ i j, 1 ≤ i ∧ i ≤ hist.GetNbinsX → 1 ≤ j ∧ j ≤ hist.GetNbinsY →
      (addBoundaryBins hist).hBoundaries.GetBinContent (i + 1) (j + 1)
        = hist.GetBinContent i j) ∧
    ((List.range' 2 hist.GetNbinsX).flatMap fun ix =>
      (List.range' 2 hist.GetNbinsY).map fun iy =>
        (addBoundaryBins hist).hBoundaries.GetBinContent ix iy) = hist.binContents := by
  have key : ∀ ix iy, 2 ≤ ix ∧ ix ≤ hist.fXaxis.fNbins + 1 →
      2 ≤ iy ∧ iy ≤ hist.fYaxis.fNbins + 1 →
      (addBoundaryBins hist).hBoundaries.fArray ix iy = hist.fArray (ix - 1) (iy - 1) := by
    intro ix iy hix hiy
    rw [addBoundaryBins_eq]
    simp only
    rw [if_pos ⟨⟨by omega, by omega⟩, by omega, by omega⟩, padCell, if_neg (by omega)]
  simp only [TH2F.GetNbinsX, TH2F.GetNbinsY, TAxis.GetNbins, TH2F.GetBinContent]
  refine ⟨key, ?_, ?_⟩
  · intro i j hi hj
    exact key (i + 1) (j + 1) ⟨by omega, by omega⟩ ⟨by omega, by omega⟩
  · have h1 : ((List.range' 2 hist.fXaxis.fNbins).flatMap fun ix =>
        (List.range' 2 hist.fYaxis.fNbins).map fun iy =>
          (addBoundaryBins hist).hBoundaries.fArray ix iy)
        = ((List.range' 2 hist.fXaxis.fNbins).flatMap fun ix =>
          (List.range' 2 hist.fYaxis.fNbins).map fun iy => hist.fArray (ix - 1) (iy - 1)) := by
      apply List.flatMap_congr
      intro ix hx
      apply List.map_congr_left
      intro iy hy
      rw [List.mem_range'_1] at hx hy
      exact key ix iy ⟨hx.1, by omega⟩ ⟨hy.1, by omega⟩
    rw [h1]
    have h2 := flatMap_pred_range'
      (fun i => (List.range' 2 hist.fYaxis.fNbins).map fun iy => hist.fArray i (iy - 1))
      1 hist.fXaxis.fNbins
    simp only [] at h2
    rw [h2]
    unfold TH2F.binContents
    congr 1
    funext ix
    exact map_pred_range' (fun j => hist.fArray ix j) 1 hist.fYaxis.fNbins

/-- The second loop of the sigma assignment appends one contour per non-empty
ring-set, in the order `ic = 4` down to `0`. -/
theorem countNonEmpty_eq (arg : OptParser) (contours : TObjArray) (n : Int)
    (m : List Contour) :
    (assignSigma arg contours n m).length = m.length + countNonEmpty contours ∧
    (assignSigma arg contours n m).map Contour.m_contours
      = m.map Contour.m_contours
        ++ (icDown.filter (fun ic => !(contours ic).IsEmpty)).map contours := by
  rcases h0 : (contours 0).IsEmpty <;> rcases h1 : (contours 1).IsEmpty <;>
  rcases h2 : (contours 2).IsEmpty <;> rcases h3 : (contours 3).IsEmpty <;>
  rcases h4 : (contours 4).IsEmpty <;>
    simp [assignSigma, countNonEmpty, icDown, Contour.setSigma, Contour.new,
      h0, h1, h2, h3, h4, List.filter]

/-- The argument histogram of `addBoundaryBins` is as it was. -/
theorem addBoundaryBins_hist (hist : TH2F) : (addBoundaryBins hist).hist = hist := by
  rw [addBoundaryBins_eq]

/-- The result of `computeContours` when the magnetic adjustment is disabled. -/
theorem computeContours_no_magnetic (env : Env) (s : ProgState) (type : histogramType)
    (hmag : s.self.m_arg.plotmagnetic = false) :
    computeContours env s type = some
      { self := { s.self with
          m_contours := sigmaAssignment s.self.m_arg
            (tracedContours env s.self.m_arg s.hist type) }
        hist := if type = histogramType.kChi2 then
          transformChi2valleyToHill s.hist offset else s.hist
        batch := false } := by
  simp only [computeContours, hmag, addBoundaryBins_hist, Bool.false_eq_true, if_false]
  rfl

/-- C9: with the magnetic adjustment disabled, `computeContours` returns, and for
every previous content of the contour collection the new collection holds
exactly one contour per non-empty ring-set of the tracer, in the order
`ic = 4` down to `0`, and nothing else: its length is the number of non-empty
ring-sets and it is empty when all five are empty. -/
theorem computeContours_fresh (env : Env) (s : ProgState) (type : histogramType)
    (hmag : s.self.m_arg.plotmagnetic = false) :
    ∃ s', computeContours env s type = some s' ∧
      s'.self.m_contours.length
        = countNonEmpty (tracedContours env s.self.m_arg s.hist type) ∧
      s'.self.m_contours.map Contour.m_contours
        = (icDown.filter (fun ic => !(tracedContours env s.self.m_arg s.hist type ic).IsEmpty)).map
            (tracedContours env s.self.m_arg s.hist type) ∧
      ((∀ ic, (tracedContours env s.self.m_arg s.hist type ic).IsEmpty = true) →
        s'.self.m_contours = []) := by
  have hc := countNonEmpty_eq s.self.m_arg (tracedContours env s.self.m_arg s.hist type)
    (countEmptyContours (tracedContours env s.self.m_arg s.hist type)) []
  simp only [List.length_nil, Nat.zero_add, List.map_nil, List.nil_append] at hc
  refine ⟨_, computeContours_no_magnetic env s type hmag, hc.1, hc.2, ?_⟩
  intro hall
  have h2 := hc.2
  rw [List.filter_eq_nil_iff.2 (by intro ic _; simp [hall ic])] at h2
  exact List.map_eq_nil_iff.1 h2

/-- C9, on a state that holds a contour of an earlier call, with a tracer that
finds two levels. -/
theorem computeContours_fresh_witness :
    ∃ s', computeContours envSample stateSample histogramType.kChi2 = some s' ∧
      s'.self.m_contours.length
        = countNonEmpty
            (tracedContours envSample stateSample.self.m_arg stateSample.hist
              histogramType.kChi2) ∧
      s'.self.m_contours.map Contour.m_contours
        = (icDown.filter (fun ic =>
            !(tracedContours envSample stateSample.self.m_arg stateSample.hist
              histogramType.kChi2 ic).IsEmpty)).map
            (tracedContours envSample stateSample.self.m_arg stateSample.hist
              histogramType.kChi2) ∧
      ((∀ ic, (tracedContours envSample stateSample.self.m_arg stateSample.hist
          histogramType.kChi2 ic).IsEmpty = true) →
        s'.self.m_contours = []) :=
  computeContours_fresh envSample stateSample histogramType.kChi2 rfl

/-- C10: in each of the three modes the level configured at index `i` is the
specification's threshold of sigma `5 - i` (with `offset = 30` for chi2), five
levels are configured, and they are strictly increasing in the index. -/
theorem configureLevels_table (arg : OptParser) (type : histogramType) (histb : TH2F) :
    offset = 30 ∧
    (configureLevels arg type offset histb).fContour.length = 5 ∧
    (∀ i : Fin 5, (configureLevels arg type offset histb).fContour[i.val]?
      = some (specLevel type arg.plot2dcl offset (5 - i.val))) ∧
    (configureLevels arg type offset histb).fContour.Pairwise (· < ·) := by
  refine ⟨rfl, ?_, ?_, ?_⟩
  · cases type <;> cases hp : arg.plot2dcl <;>
      simp [configureLevels, TH2F.SetContour, TH2F.SetContourLevel, nMaxContours, hp,
        List.replicate]
  · intro i
    cases type <;> cases hp : arg.plot2dcl <;> fin_cases i <;>
      simp [configureLevels, TH2F.SetContour, TH2F.SetContourLevel, nMaxContours, hp,
        List.replicate, specLevel, specDelta1D, specDelta2D, specPValue, offset] <;>
      norm_num
  · cases type <;> cases hp : arg.plot2dcl <;>
      simp [configureLevels, TH2F.SetContour, TH2F.SetContourLevel, nMaxContours, hp,
        List.replicate, offset] <;>
      norm_num

end ConfidenceContours

/-- An index inside the vector is read without fault. -/
theorem vectorAt_ok {α : Type} (v : List α) (i : Nat) (a : α) (fault : Int → Fault)
    (h : v[i]? = some a) : vectorAt v (i : Int) fault = Except.ok a := by
  simp [vectorAt, h]

/-- An index at or beyond the end of the vector is a fault. -/
theorem vectorAt_error {α : Type} (v : List α) (i : Nat) (fault : Int → Fault)
    (h : v.length ≤ i) : vectorAt v (i : Int) fault = Except.error (fault i) := by
  have h2 : v[i]? = none := List.getElem?_eq_none h
  simp [vectorAt, h2]

/-- A negative index is a fault. -/
theorem vectorAt_neg {α : Type} (v : List α) (i : Int) (fault : Int → Fault)
    (h : i < 0) : vectorAt v i fault = Except.error (fault i) := by
  have h2 : ¬ (0 ≤ i) := by omega
  simp [vectorAt, h2]

/-- On the values of `int`, `int` arithmetic is exact. -/
theorem wrapInt32_of_range (x : Int) (h1 : -2147483648 ≤ x) (h2 : x ≤ 2147483647) :
    wrapInt32 x = x := by
  unfold wrapInt32
  omega

/-- For a count other than `INT_MIN` the start index is `n - 1`, and the loop
visits `n - 1, ..., 0`. -/
theorem downFrom_of_range (n : Int) (hmin : -2147483648 < n) (hmax : n ≤ 2147483647) :
    downFrom n = (List.range n.toNat).reverse := by
  unfold downFrom
  rw [wrapInt32_of_range _ (by omega) (by omega)]
  congr 2
  omega

/-- The loop `for (int i = n - 1; i >= 0; i--)` starts at `n - 1`. -/
theorem downFrom_pos (n : Int) (h : 1 ≤ n) (hmax : n ≤ 2147483647) :
    downFrom n = (n - 1).toNat :: downFrom (n - 1) := by
  rw [downFrom_of_range n (by omega) hmax, downFrom_of_range (n - 1) (by omega) (by omega)]
  obtain ⟨k, rfl⟩ : ∃ k : Nat, n = (k : Int) + 1 := ⟨(n - 1).toNat, by omega⟩
  simp [List.range_succ]

/-- The loop `for (int i = n - 1; i >= 0; i--)` does nothing for `n ≤ 0`, when
`n - 1` does not overflow. -/
theorem downFrom_nonpos (n : Int) (h : n ≤ 0) (hmin : -2147483648 < n) :
    downFrom n = [] := by
  rw [downFrom_of_range n hmin (by omega)]
  have : n.toNat = 0 := by omega
  simp [this]

/-- The indices of the loop `for (int i = n - 1; i >= 0; i--)` are below `n`. -/
theorem mem_downFrom (n : Int) (i : Nat) (hmin : -2147483648 < n) (hmax : n ≤ 2147483647) :
    i ∈ downFrom n ↔ (i : Int) < n := by
  rw [downFrom_of_range n hmin hmax]
  simp only [List.mem_reverse, List.mem_range]
  omega

/-- The loop starts at the index that `n - 1` gives in `int`, when that is not
negative. -/
theorem downFrom_head (n : Int) (k : Nat) (h : wrapInt32 (n - 1) = (k : Int)) :
    downFrom n = k :: (List.range k).reverse := by
  unfold downFrom
  have e : ((k : Int) + 1).toNat = k + 1 := by omega
  rw [h, e, List.range_succ, List.reverse_append]
  rfl

/-- For the count `INT_MIN` the start index `n - 1` wraps around to `INT_MAX`:
the loop starts at index 2147483647. -/
theorem downFrom_min :
    ∃ rest, downFrom (-2147483648) = 2147483647 :: rest :=
  ⟨_, downFrom_head (-2147483648) 2147483647 (by unfold wrapInt32; norm_num)⟩

/-- A vector access either yields the element at the index or faults. -/
theorem vectorAt_cases {α : Type} (v : List α) (i : Nat) (fault : Int → Fault) :
    (∃ a, vectorAt v (i : Int) fault = Except.ok a ∧ v[i]? = some a) ∨
    vectorAt v (i : Int) fault = Except.error (fault i) := by
  cases h : v[i]? with
  | none => right; simp [vectorAt, h]
  | some a => left; exact ⟨a, by simp [vectorAt, h], rfl⟩

namespace ConfidenceContours

/-- The first iteration of `Draw` faults on a contour index at or beyond the
end of the collection. -/
theorem DrawBody_contour_error (st : DrawState) (i : Nat)
    (h : st.self.m_contours.length ≤ i) :
    DrawBody st i = Except.error (Fault.contourIndex i) := by
  simp [DrawBody, vectorAt_error _ _ _ h, bind, Except.bind]

/-- The first iteration of `DrawDashedLine` faults on a contour index at or
beyond the end of the collection. -/
theorem DrawDashedLineBody_contour_error (st : DrawState) (i : Nat)
    (h : st.self.m_contours.length ≤ i) :
    DrawDashedLineBody st i = Except.error (Fault.contourIndex i) := by
  simp [DrawDashedLineBody, vectorAt_error _ _ _ h, bind, Except.bind]

/-- An iteration of `Draw` on a valid contour index does not fault on the
contour collection, and leaves its length alone. -/
theorem DrawBody_valid (st : DrawState) (i : Nat) (h : i < st.self.m_contours.length) :
    (∃ j, DrawBody st i = Except.error (Fault.styleIndex j)) ∨
    (∃ st', DrawBody st i = Except.ok st' ∧
      st'.self.m_contours.length = st.self.m_contours.length) := by
  have hc : st.self.m_contours[i]? = some (st.self.m_contours[i]) :=
    List.getElem?_eq_getElem h
  have hc2 := vectorAt_ok _ _ _ Fault.contourIndex hc
  rcases vectorAt_cases st.self.m_linecolor i Fault.styleIndex with ⟨a1, h1, -⟩ | h1 <;>
  rcases vectorAt_cases st.self.m_linestyle i Fault.styleIndex with ⟨a2, h2, -⟩ | h2 <;>
  rcases vectorAt_cases st.self.m_linewidth i Fault.styleIndex with ⟨a3, h3, -⟩ | h3 <;>
  rcases vectorAt_cases st.self.m_fillcolor i Fault.styleIndex with ⟨a4, h4, -⟩ | h4 <;>
  rcases vectorAt_cases st.self.m_fillstyle i Fault.styleIndex with ⟨a5, h5, -⟩ | h5 <;>
    simp [DrawBody, hc2, h1, h2, h3, h4, h5, bind, Except.bind, pure, Except.pure]

/-- An iteration of `DrawDashedLine` on a valid contour index does not fault on
the contour collection, and leaves its length alone. -/
theorem DrawDashedLineBody_valid (st : DrawState) (i : Nat)
    (h : i < st.self.m_contours.length) :
    (∃ j, DrawDashedLineBody st i = Except.error (Fault.styleIndex j)) ∨
    (∃ st', DrawDashedLineBody st i = Except.ok st' ∧
      st'.self.m_contours.length = st.self.m_contours.length) := by
  have hc : st.self.m_contours[i]? = some (st.self.m_contours[i]) :=
    List.getElem?_eq_getElem h
  have hc2 := vectorAt_ok _ _ _ Fault.contourIndex hc
  rcases vectorAt_cases st.self.m_linecolor i Fault.styleIndex with ⟨a1, h1, -⟩ | h1 <;>
  rcases vectorAt_cases st.self.m_linewidth i Fault.styleIndex with ⟨a3, h3, -⟩ | h3 <;>
    simp [DrawDashedLineBody, hc2, h1, h3, bind, Except.bind, pure, Except.pure]

/-- A loop of `Draw` iterations over valid contour indices never faults on the
contour collection. -/
theorem Draw_loop_valid (idxs : List Nat) (st : DrawState)
    (h : ∀ i ∈ idxs, i < st.self.m_contours.length) (j : Int) :
    idxs.foldlM DrawBody st ≠ Except.error (Fault.contourIndex j) := by
  induction idxs generalizing st with
  | nil => simp [pure, Except.pure]
  | cons i rest ih =>
    rw [List.foldlM_cons]
    rcases DrawBody_valid st i (h i (List.mem_cons_self _ _)) with ⟨j2, hj⟩ | ⟨st1, hst, hlen⟩
    · rw [hj]
      simp [bind, Except.bind]
    · rw [hst]
      simp only [bind, Except.bind]
      apply ih
      intro i2 hi2
      rw [hlen]
      exact h i2 (List.mem_cons_of_mem _ hi2)

/-- A loop of `DrawDashedLine` iterations over valid contour indices never
faults on the contour collection. -/
theorem DrawDashedLine_loop_valid (idxs : List Nat) (st : DrawState)
    (h : ∀ i ∈ idxs, i < st.self.m_contours.length) (j : Int) :
    idxs.foldlM DrawDashedLineBody st ≠ Except.error (Fault.contourIndex j) := by
  induction idxs generalizing st with
  | nil => simp [pure, Except.pure]
  | cons i rest ih =>
    rw [List.foldlM_cons]
    rcases DrawDashedLineBody_valid st i (h i (List.mem_cons_self _ _))
      with ⟨j2, hj⟩ | ⟨st1, hst, hlen⟩
    · rw [hj]
      simp [bind, Except.bind]
    · rw [hst]
      simp only [bind, Except.bind]
      apply ih
      intro i2 hi2
      rw [hlen]
      exact h i2 (List.mem_cons_of_mem _ hi2)

/-- With the count `INT_MIN` both drawing operations fault at their first
access, at index `INT_MAX`. -/
theorem Draw_min_fault (st : DrawState) (hn : st.self.m_arg.plotnsigmacont = -2147483648)
    (hlen : st.self.m_contours.length ≤ 2147483647) :
    Draw st = Except.error (Fault.contourIndex 2147483647) ∧
    DrawDashedLine st = Except.error (Fault.contourIndex 2147483647) := by
  obtain ⟨rest, hrest⟩ := downFrom_min
  constructor
  · rw [Draw, hn, hrest, List.foldlM_cons, DrawBody_contour_error st _ hlen]
    rfl
  · rw [DrawDashedLine, hn, hrest, List.foldlM_cons,
      DrawDashedLineBody_contour_error st _ hlen]
    rfl

/-- C13 (as stated, refuted): the count `INT_MIN` is at most the number of
contours stored, whatever that is, and yet the first access of `Draw` and of
`DrawDashedLine` is out of range: the start index `plotnsigmacont - 1` is
computed in `int` and, taken modulo `2 ^ 32`, is `INT_MAX`.  Here on a
collection of three contours. -/
theorem Draw_indices_counterexample :
    selfThreeMin.m_contours.length = 3 ∧
    selfThreeMin.m_arg.plotnsigmacont = -2147483648 ∧
    selfThreeMin.m_arg.plotnsigmacont ≤ (selfThreeMin.m_contours.length : Int) ∧
    (downFrom selfThreeMin.m_arg.plotnsigmacont).head? = some 2147483647 ∧
    ¬ (∀ i ∈ downFrom selfThreeMin.m_arg.plotnsigmacont, i < selfThreeMin.m_contours.length) ∧
    Draw ⟨selfThreeMin, []⟩ = Except.error (Fault.contourIndex 2147483647) ∧
    DrawDashedLine ⟨selfThreeMin, []⟩ = Except.error (Fault.contourIndex 2147483647) := by
  have hlen : selfThreeMin.m_contours.length = 3 := by decide
  have hn : selfThreeMin.m_arg.plotnsigmacont = -2147483648 := rfl
  obtain ⟨rest, hrest⟩ := downFrom_min
  have hf := Draw_min_fault ⟨selfThreeMin, []⟩ hn (by rw [hlen]; omega)
  refine ⟨hlen, hn, by rw [hn, hlen]; omega, by rw [hn, hrest]; rfl, ?_, hf.1, hf.2⟩
  intro hall
  have := hall 2147483647 (by rw [hn, hrest]; exact List.mem_cons_self _ _)
  rw [hlen] at this
  omega

/-- C13 (amended): for a configured count `plotnsigmacont` other than `INT_MIN`,
`Draw` and `DrawDashedLine` index the contour collection only at valid
positions if and only if the count is at most the number of contours stored:
for a count above the size the first access, at index `plotnsigmacont - 1`, is
out of range, and for a count within the size neither operation faults on the
contour collection. -/
theorem Draw_indices (st : DrawState)
    (hmin : -2147483648 < st.self.m_arg.plotnsigmacont)
    (hmax : st.self.m_arg.plotnsigmacont ≤ 2147483647) :
    ((∀ i ∈ downFrom st.self.m_arg.plotnsigmacont, i < st.self.m_contours.length)
      ↔ st.self.m_arg.plotnsigmacont ≤ (st.self.m_contours.length : Int)) ∧
    ((st.self.m_contours.length : Int) < st.self.m_arg.plotnsigmacont →
      (downFrom st.self.m_arg.plotnsigmacont).head?
        = some (st.self.m_arg.plotnsigmacont - 1).toNat ∧
      ¬ ((st.self.m_arg.plotnsigmacont - 1).toNat < st.self.m_contours.length) ∧
      Draw st = Except.error (Fault.contourIndex (st.self.m_arg.plotnsigmacont - 1)) ∧
      DrawDashedLine st
        = Except.error (Fault.contourIndex (st.self.m_arg.plotnsigmacont - 1))) ∧
    (st.self.m_arg.plotnsigmacont ≤ (st.self.m_contours.length : Int) →
      ∀ j, Draw st ≠ Except.error (Fault.contourIndex j) ∧
        DrawDashedLine st ≠ Except.error (Fault.contourIndex j)) := by
  have hiff : (∀ i ∈ downFrom st.self.m_arg.plotnsigmacont, i < st.self.m_contours.length)
      ↔ st.self.m_arg.plotnsigmacont ≤ (st.self.m_contours.length : Int) := by
    constructor
    · intro h
      by_contra hlt
      have hmem := (mem_downFrom st.self.m_arg.plotnsigmacont st.self.m_contours.length
        hmin hmax).2 (by omega)
      exact absurd (h _ hmem) (lt_irrefl _)
    · intro h i hi
      have := (mem_downFrom _ _ hmin hmax).1 hi
      omega
  refine ⟨hiff, ?_, ?_⟩
  · intro hlt
    have h1 : 1 ≤ st.self.m_arg.plotnsigmacont := by omega
    have hidx : st.self.m_contours.length ≤ (st.self.m_arg.plotnsigmacont - 1).toNat := by
      omega
    have hcast : (((st.self.m_arg.plotnsigmacont - 1).toNat : Nat) : Int)
        = st.self.m_arg.plotnsigmacont - 1 := by omega
    refine ⟨by rw [downFrom_pos _ h1 hmax]; rfl, by omega, ?_, ?_⟩
    · rw [Draw, downFrom_pos _ h1 hmax, List.foldlM_cons, DrawBody_contour_error st _ hidx,
        hcast]
      rfl
    · rw [DrawDashedLine, downFrom_pos _ h1 hmax, List.foldlM_cons,
        DrawDashedLineBody_contour_error st _ hidx, hcast]
      rfl
  · intro hle j
    exact ⟨Draw_loop_valid _ st (hiff.2 hle) j, DrawDashedLine_loop_valid _ st (hiff.2 hle) j⟩

/-- C13 (amended), on three contours with two to draw. -/
theorem Draw_indices_witness :
    (-2147483648 < selfThree.m_arg.plotnsigmacont ∧
      selfThree.m_arg.plotnsigmacont ≤ 2147483647) ∧
    ((∀ i ∈ downFrom selfThree.m_arg.plotnsigmacont, i < selfThree.m_contours.length)
      ↔ selfThree.m_arg.plotnsigmacont ≤ (selfThree.m_contours.length : Int)) ∧
    ((selfThree.m_contours.length : Int) < selfThree.m_arg.plotnsigmacont →
      (downFrom selfThree.m_arg.plotnsigmacont).head?
        = some (selfThree.m_arg.plotnsigmacont - 1).toNat ∧
      ¬ ((selfThree.m_arg.plotnsigmacont - 1).toNat < selfThree.m_contours.length) ∧
      Draw ⟨selfThree, []⟩
        = Except.error (Fault.contourIndex (selfThree.m_arg.plotnsigmacont - 1)) ∧
      DrawDashedLine ⟨selfThree, []⟩
        = Except.error (Fault.contourIndex (selfThree.m_arg.plotnsigmacont - 1))) ∧
    (selfThree.m_arg.plotnsigmacont ≤ (selfThree.m_contours.length : Int) →
      ∀ j, Draw ⟨selfThree, []⟩ ≠ Except.error (Fault.contourIndex j) ∧
        DrawDashedLine ⟨selfThree, []⟩ ≠ Except.error (Fault.contourIndex j)) :=
  ⟨⟨by decide, by decide⟩, Draw_indices ⟨selfThree, []⟩ (by decide) (by decide)⟩

end ConfidenceContours

namespace ConfidenceContours

/-- The result of `computeContours`, with the magnetic adjustment enabled or
not. -/
theorem computeContours_eq (env : Env) (s : ProgState) (type : histogramType) :
    computeContours env s type =
      if s.self.m_arg.plotmagnetic then
        match magneticLoop env.magneticBoundaries
          (if type = histogramType.kChi2 then
            transformChi2valleyToHill s.hist offset else s.hist)
          (sigmaAssignment s.self.m_arg (tracedContours env s.self.m_arg s.hist type)) with
        | none => none
        | some m_contours =>
          some { self := { s.self with m_contours := m_contours }
                 hist := if type = histogramType.kChi2 then
                   transformChi2valleyToHill s.hist offset else s.hist
                 batch := false }
      else
        some { self := { s.self with
                  m_contours := sigmaAssignment s.self.m_arg
                    (tracedContours env s.self.m_arg s.hist type) }
               hist := if type = histogramType.kChi2 then
                 transformChi2valleyToHill s.hist offset else s.hist
               batch := false } := by
  simp only [computeContours, addBoundaryBins_hist]
  rfl

/-- The magnetic-boundary loop starts at index 4: on fewer than five contours
it runs out of range. -/
theorem magneticLoop_short (f : TH2F → Contour → Contour) (hist : TH2F)
    (cs : List Contour) (h : cs.length < 5) : magneticLoop f hist cs = none := by
  have h4 : cs[4]? = none := List.getElem?_eq_none (by omega)
  simp [magneticLoop, icDown, fin5_val_four, h4]

/-- When all five ring-sets are empty the sigma assignment creates nothing. -/
theorem sigmaAssignment_all_empty (arg : OptParser) (contours : TObjArray)
    (hall : ∀ ic, (contours ic).IsEmpty = true) : sigmaAssignment arg contours = [] := by
  simp [sigmaAssignment, assignSigma, icDown, hall]

/-- `Draw` with a count of zero or less does nothing. -/
theorem Draw_nonpos (st : DrawState) (h : st.self.m_arg.plotnsigmacont ≤ 0)
    (hmin : -2147483648 < st.self.m_arg.plotnsigmacont) :
    Draw st = Except.ok st ∧ DrawDashedLine st = Except.ok st := by
  simp [Draw, DrawDashedLine, downFrom_nonpos _ h hmin, pure, Except.pure]

/-- C14 (as stated, refuted): after `computeContours` on a surface that crosses
no level the collection is empty, and with five sigma contours configured
`Draw` and `DrawDashedLine` access `m_contours[4]`, out of range; with
`INT_MIN` sigma contours configured they access `m_contours[2147483647]`. -/
theorem Draw_empty_counterexample :
    (∃ s', computeContours envEmpty stateSample histogramType.kPvalue = some s' ∧
      s'.self.m_contours = [] ∧
      s'.self.m_arg.plotnsigmacont = 5 ∧
      Draw ⟨s'.self, []⟩ = Except.error (Fault.contourIndex 4) ∧
      DrawDashedLine ⟨s'.self, []⟩ = Except.error (Fault.contourIndex 4)) ∧
    (∃ s', computeContours envEmpty stateSampleMin histogramType.kPvalue = some s' ∧
      s'.self.m_contours = [] ∧
      s'.self.m_arg.plotnsigmacont = -2147483648 ∧
      Draw ⟨s'.self, []⟩ = Except.error (Fault.contourIndex 2147483647) ∧
      DrawDashedLine ⟨s'.self, []⟩ = Except.error (Fault.contourIndex 2147483647)) := by
  constructor
  · refine ⟨_, computeContours_no_magnetic envEmpty stateSample histogramType.kPvalue rfl,
      rfl, rfl, ?_, ?_⟩
    · rw [Draw, downFrom_pos _ (by decide) (by decide), List.foldlM_cons,
        DrawBody_contour_error _ _ (by decide)]
      rfl
    · rw [DrawDashedLine, downFrom_pos _ (by decide) (by decide), List.foldlM_cons,
        DrawDashedLineBody_contour_error _ _ (by decide)]
      rfl
  · refine ⟨_, computeContours_no_magnetic envEmpty stateSampleMin histogramType.kPvalue rfl,
      rfl, rfl, ?_⟩
    exact Draw_min_fault _ rfl (by decide)

/-- C14 (amended): when `computeContours` has produced an empty contour
collection (all five ring-sets empty), `Draw` and `DrawDashedLine` are no-ops
when the configured number of sigma contours is zero or less and not `INT_MIN`:
they access no contour and leave the object and the canvas unchanged.  For a
configured number `n ≥ 1` their first access, `m_contours[n-1]`, is out of
range. -/
theorem Draw_empty (env : Env) (s s' : ProgState) (type : histogramType)
    (canvas : List DrawCall)
    (hrun : computeContours env s type = some s')
    (hall : ∀ ic, (tracedContours env s.self.m_arg s.hist type ic).IsEmpty = true) :
    s'.self.m_contours = [] ∧
    (s'.self.m_arg.plotnsigmacont ≤ 0 → -2147483648 < s'.self.m_arg.plotnsigmacont →
      Draw ⟨s'.self, canvas⟩ = Except.ok ⟨s'.self, canvas⟩ ∧
      DrawDashedLine ⟨s'.self, canvas⟩ = Except.ok ⟨s'.self, canvas⟩) ∧
    (1 ≤ s'.self.m_arg.plotnsigmacont → s'.self.m_arg.plotnsigmacont ≤ 2147483647 →
      Draw ⟨s'.self, canvas⟩
        = Except.error (Fault.contourIndex (s'.self.m_arg.plotnsigmacont - 1)) ∧
      DrawDashedLine ⟨s'.self, canvas⟩
        = Except.error (Fault.contourIndex (s'.self.m_arg.plotnsigmacont - 1))) := by
  have hempty : s'.self.m_contours = [] := by
    rw [computeContours_eq, sigmaAssignment_all_empty _ _ hall] at hrun
    cases hm : s.self.m_arg.plotmagnetic
    · simp only [hm, Bool.false_eq_true, if_false, Option.some.injEq] at hrun
      rw [← hrun]
    · rw [magneticLoop_short _ _ _ (by simp)] at hrun
      simp [hm] at hrun
  refine ⟨hempty, fun h hmin => Draw_nonpos ⟨s'.self, canvas⟩ h hmin, ?_⟩
  intro h1 hmax
  have hidx : (⟨s'.self, canvas⟩ : DrawState).self.m_contours.length
      ≤ (s'.self.m_arg.plotnsigmacont - 1).toNat := by simp [hempty]
  have hcast : (((s'.self.m_arg.plotnsigmacont - 1).toNat : Nat) : Int)
      = s'.self.m_arg.plotnsigmacont - 1 := by omega
  constructor
  · rw [Draw, downFrom_pos _ h1 hmax, List.foldlM_cons, DrawBody_contour_error _ _ hidx,
      hcast]
    rfl
  · rw [DrawDashedLine, downFrom_pos _ h1 hmax, List.foldlM_cons,
      DrawDashedLineBody_contour_error _ _ hidx, hcast]
    rfl

/-- C14 (amended), on the sample state with a tracer that finds no level. -/
theorem Draw_empty_witness :
    (stateAfterEmpty).self.m_contours = [] ∧
    ((stateAfterEmpty).self.m_arg.plotnsigmacont ≤ 0 →
      -2147483648 < (stateAfterEmpty).self.m_arg.plotnsigmacont →
      Draw ⟨(stateAfterEmpty).self, []⟩ = Except.ok ⟨(stateAfterEmpty).self, []⟩ ∧
      DrawDashedLine ⟨(stateAfterEmpty).self, []⟩
        = Except.ok ⟨(stateAfterEmpty).self, []⟩) ∧
    (1 ≤ (stateAfterEmpty).self.m_arg.plotnsigmacont →
      (stateAfterEmpty).self.m_arg.plotnsigmacont ≤ 2147483647 →
      Draw ⟨(stateAfterEmpty).self, []⟩
        = Except.error (Fault.contourIndex ((stateAfterEmpty).self.m_arg.plotnsigmacont - 1)) ∧
      DrawDashedLine ⟨(stateAfterEmpty).self, []⟩
        = Except.error
            (Fault.contourIndex ((stateAfterEmpty).self.m_arg.plotnsigmacont - 1))) :=
  Draw_empty envEmpty stateSample stateAfterEmpty histogramType.kPvalue []
    (computeContours_no_magnetic envEmpty stateSample histogramType.kPvalue rfl)
    (by decide)

end ConfidenceContours

namespace ConfidenceContours

/-- The first loop of `setStyle` appends one line width 2 per supplied style. -/
theorem setStyle_widths (n : Nat) (s : ConfidenceContours) :
    forUp 0 n (fun _ s => { s with m_linewidth := s.m_linewidth ++ [2] }) s =
      { s with m_linewidth := s.m_linewidth ++ List.replicate n 2 } := by
  induction n with
  | zero => simp [forUp_zero]
  | succ n ih =>
    rw [forUp_succ, ih]
    simp [List.replicate_succ', List.append_assoc]

/-- One iteration of the padding loop of `setStyle`, when the four style
sequences have the common length `L ≥ 1` and the line widths are at least as
many. -/
theorem setStyleBody_ok (s : ConfidenceContours) (L : Nat) (hL : 1 ≤ L)
    (x1 x2 x3 x4 y : Int)
    (h1 : s.m_linecolor[L - 1]? = some x1) (h2 : s.m_linestyle[L - 1]? = some x2)
    (h3 : s.m_fillcolor[L - 1]? = some x3) (h4 : s.m_fillstyle[L - 1]? = some x4)
    (h5 : s.m_linewidth[L - 1]? = some y) (hlen : s.m_linestyle.length = L) :
    setStyleBody s = Except.ok
      { s with m_linecolor := s.m_linecolor ++ [x1], m_linestyle := s.m_linestyle ++ [x2],
               m_fillcolor := s.m_fillcolor ++ [x3], m_fillstyle := s.m_fillstyle ++ [x4],
               m_linewidth := s.m_linewidth ++ [y] } := by
  have hcast : ((s.m_linestyle.length : Int) - 1) = ((L - 1 : Nat) : Int) := by
    rw [hlen]
    omega
  simp only [setStyleBody, hcast, vectorAt_ok _ _ _ _ h1, vectorAt_ok _ _ _ _ h2,
    vectorAt_ok _ _ _ _ h3, vectorAt_ok _ _ _ _ h4, vectorAt_ok _ _ _ _ h5, bind, Except.bind,
    pure, Except.pure]

/-- The padding loop of `setStyle`, `j` iterations: each of the four style
sequences gets `j` copies of its last entry, the line widths get `j` entries
more. -/
theorem setStyle_pad (j a : Nat) (s : ConfidenceContours) (L : Nat) (hL : 1 ≤ L)
    (x1 x2 x3 x4 : Int)
    (h1 : s.m_linecolor[L - 1]? = some x1) (h2 : s.m_linestyle[L - 1]? = some x2)
    (h3 : s.m_fillcolor[L - 1]? = some x3) (h4 : s.m_fillstyle[L - 1]? = some x4)
    (l1 : s.m_linecolor.length = L) (l2 : s.m_linestyle.length = L)
    (l3 : s.m_fillcolor.length = L) (l4 : s.m_fillstyle.length = L)
    (l5 : L ≤ s.m_linewidth.length) :
    ∃ s', (List.range' a j).foldlM (fun s _ => setStyleBody s) s = Except.ok s' ∧
      s'.m_arg = s.m_arg ∧ s'.m_contours = s.m_contours ∧
      s'.m_linecolor = s.m_linecolor ++ List.replicate j x1 ∧
      s'.m_linestyle = s.m_linestyle ++ List.replicate j x2 ∧
      s'.m_fillcolor = s.m_fillcolor ++ List.replicate j x3 ∧
      s'.m_fillstyle = s.m_fillstyle ++ List.replicate j x4 ∧
      s'.m_linewidth.length = s.m_linewidth.length + j ∧
      (∀ w, (∀ y ∈ s.m_linewidth, y = w) → ∀ y ∈ s'.m_linewidth, y = w) := by
  induction j generalizing a s L with
  | zero =>
    exact ⟨s, rfl, rfl, rfl, by simp, by simp, by simp, by simp, rfl, fun w h => h⟩
  | succ j ih =>
    obtain ⟨y, h5⟩ : ∃ y, s.m_linewidth[L - 1]? = some y :=
      ⟨s.m_linewidth[L - 1], List.getElem?_eq_getElem (by omega)⟩
    rw [List.range'_succ, List.foldlM_cons, setStyleBody_ok s L hL x1 x2 x3 x4 y h1 h2 h3 h4 h5 l2]
    simp only [bind, Except.bind]
    have hget : ∀ (l : List Int) (x : Int), l.length = L → (l ++ [x])[L + 1 - 1]? = some x := by
      intro l x hl
      rw [Nat.add_sub_cancel, ← hl]
      simp
    obtain ⟨s', hs', ha, hc, e1, e2, e3, e4, e5, e6⟩ := ih (a + 1)
      { s with m_linecolor := s.m_linecolor ++ [x1], m_linestyle := s.m_linestyle ++ [x2],
               m_fillcolor := s.m_fillcolor ++ [x3], m_fillstyle := s.m_fillstyle ++ [x4],
               m_linewidth := s.m_linewidth ++ [y] }
      (L + 1) (by omega) (hget _ _ l1) (hget _ _ l2) (hget _ _ l3) (hget _ _ l4)
      (by simp [l1]) (by simp [l2]) (by simp [l3]) (by simp [l4]) (by simp; omega)
    refine ⟨s', hs', ha, hc, ?_, ?_, ?_, ?_, ?_, ?_⟩
    · rw [e1]; simp [List.replicate_succ]
    · rw [e2]; simp [List.replicate_succ]
    · rw [e3]; simp [List.replicate_succ]
    · rw [e4]; simp [List.replicate_succ]
    · rw [e5]; simp; omega
    · intro w hw
      apply e6 w
      intro z hz
      simp only [List.mem_append, List.mem_singleton] at hz
      rcases hz with hz | hz
      · exact hw z hz
      · rw [hz]
        exact hw y (List.getElem?_mem h5)

/-- The result of `setStyle` when too few styles are supplied: `m ≥ 1` entries
in each of the four sequences, `n > m` contours requested. -/
theorem setStyle_eq (self : ConfidenceContours) (linecolor linestyle fillcolor fillstyle : List Int)
    (m n : Nat) (hm : 1 ≤ m) (hmn : m < n) (hint : n < 2 ^ 31)
    (hn : self.m_arg.plotnsigmacont = (n : Int))
    (x1 x2 x3 x4 : Int)
    (h1 : linecolor[m - 1]? = some x1) (h2 : linestyle[m - 1]? = some x2)
    (h3 : fillcolor[m - 1]? = some x3) (h4 : fillstyle[m - 1]? = some x4)
    (l1 : linecolor.length = m) (l2 : linestyle.length = m)
    (l3 : fillcolor.length = m) (l4 : fillstyle.length = m) :
    ∃ s', setStyle self linecolor linestyle fillcolor fillstyle = Except.ok s' ∧
      s'.m_arg = self.m_arg ∧ s'.m_contours = self.m_contours ∧
      s'.m_linecolor = linecolor ++ List.replicate (n - m) x1 ∧
      s'.m_linestyle = linestyle ++ List.replicate (n - m) x2 ∧
      s'.m_fillcolor = fillcolor ++ List.replicate (n - m) x3 ∧
      s'.m_fillstyle = fillstyle ++ List.replicate (n - m) x4 ∧
      s'.m_linewidth.length = self.m_linewidth.length + n ∧
      (self.m_linewidth = [] → s'.m_linewidth = List.replicate n 2) := by
  have hsz : toSizeT (n : Int) > m := by
    have : ((n : Int) % 2 ^ 64).toNat = n := by omega
    simp only [toSizeT, this]
    exact hmn
  have hcnt : ((n : Int) - (m : Int)).toNat = n - m := by omega
  unfold setStyle
  simp only [setStyle_widths, hn, l2, hsz, if_true, hcnt]
  obtain ⟨s', hs', ha, hc, e1, e2, e3, e4, e5, e6⟩ := setStyle_pad (n - m) m
    { self with m_linecolor := linecolor, m_linestyle := linestyle, m_fillcolor := fillcolor,
                m_fillstyle := fillstyle,
                m_linewidth := self.m_linewidth ++ List.replicate m 2 }
    m hm x1 x2 x3 x4 h1 h2 h3 h4 l1 l2 l3 l4 (by simp)
  refine ⟨s', hs', ha, hc, e1, e2, e3, e4, ?_, ?_⟩
  · rw [e5]; simp; omega
  · intro hw
    have hall := e6 2 (by simp [hw])
    have hlen : s'.m_linewidth.length = n := by rw [e5]; simp [hw]; omega
    rw [← hlen]
    exact List.eq_replicate_of_mem hall

end ConfidenceContours

namespace ConfidenceContours

end ConfidenceContours

namespace ConfidenceContours

end ConfidenceContours

namespace ConfidenceContours

/-- The entries of a padded style sequence from the last supplied one on. -/
theorem padded_getElem (l : List Int) (x : Int) (m n : Nat) (hm : 1 ≤ m)
    (hl : l.length = m) (hx : l[m - 1]? = some x) (i : Nat) (h1 : m - 1 ≤ i) (h2 : i < n) :
    (l ++ List.replicate (n - m) x)[i]? = some x := by
  by_cases hi : i < m
  · have : i = m - 1 := by omega
    rw [List.getElem?_append_left (by omega), this, hx]
  · rw [List.getElem?_append_right (by omega), List.getElem?_replicate]
    rw [if_pos (by omega)]

/-- C11 (as stated, refuted): with `m = 3` styles for `n = 4` contours the stored
line colors `1, 2, 3` become `1, 2, 3, 3`; the entry at index `n - m = 1` is 2,
not the entry 3 at index `m - 1 = 2`. -/
theorem setStyle_padding_counterexample :
    ∃ s', setStyle (selfEmpty 4) [1, 2, 3] [4, 5, 6] [7, 8, 9] [10, 11, 12] = Except.ok s' ∧
      s'.m_linecolor = [1, 2, 3, 3] ∧
      s'.m_linecolor[4 - 3]? ≠ s'.m_linecolor[3 - 1]? :=
  ⟨_, rfl, rfl, by decide⟩

/-- C11 (amended): with `1 ≤ m < n`, four style sequences of common length `m`,
`n` the requested number of sigma contours and the line-width sequence empty
before the call, `setStyle` returns and each of the five stored style sequences
has length `n` (so at least `n`), its entries at the indices `m-1..n-1` all
equal to its entry at index `m-1`. -/
theorem setStyle_padding (self : ConfidenceContours)
    (linecolor linestyle fillcolor fillstyle : List Int) (m n : Nat)
    (hm : 1 ≤ m) (hmn : m < n) (hint : n < 2 ^ 31)
    (hn : self.m_arg.plotnsigmacont = (n : Int))
    (l1 : linecolor.length = m) (l2 : linestyle.length = m)
    (l3 : fillcolor.length = m) (l4 : fillstyle.length = m)
    (hw : self.m_linewidth = []) :
    ∃ s', setStyle self linecolor linestyle fillcolor fillstyle = Except.ok s' ∧
      (s'.m_linecolor.length = n ∧
        ∀ i, m - 1 ≤ i → i < n → s'.m_linecolor[i]? = s'.m_linecolor[m - 1]?) ∧
      (s'.m_linestyle.length = n ∧
        ∀ i, m - 1 ≤ i → i < n → s'.m_linestyle[i]? = s'.m_linestyle[m - 1]?) ∧
      (s'.m_fillcolor.length = n ∧
        ∀ i, m - 1 ≤ i → i < n → s'.m_fillcolor[i]? = s'.m_fillcolor[m - 1]?) ∧
      (s'.m_fillstyle.length = n ∧
        ∀ i, m - 1 ≤ i → i < n → s'.m_fillstyle[i]? = s'.m_fillstyle[m - 1]?) ∧
      (s'.m_linewidth.length = n ∧
        ∀ i, m - 1 ≤ i → i < n → s'.m_linewidth[i]? = s'.m_linewidth[m - 1]?) := by
  obtain ⟨x1, h1⟩ : ∃ x, linecolor[m - 1]? = some x :=
    ⟨_, List.getElem?_eq_getElem (by omega)⟩
  obtain ⟨x2, h2⟩ : ∃ x, linestyle[m - 1]? = some x :=
    ⟨_, List.getElem?_eq_getElem (by omega)⟩
  obtain ⟨x3, h3⟩ : ∃ x, fillcolor[m - 1]? = some x :=
    ⟨_, List.getElem?_eq_getElem (by omega)⟩
  obtain ⟨x4, h4⟩ : ∃ x, fillstyle[m - 1]? = some x :=
    ⟨_, List.getElem?_eq_getElem (by omega)⟩
  obtain ⟨s', hs', -, -, e1, e2, e3, e4, -, e6⟩ := setStyle_eq self linecolor linestyle
    fillcolor fillstyle m n hm hmn hint hn x1 x2 x3 x4 h1 h2 h3 h4 l1 l2 l3 l4
  have key : ∀ (l : List Int) (x : Int), l.length = m → l[m - 1]? = some x →
      (l ++ List.replicate (n - m) x).length = n ∧
      ∀ i, m - 1 ≤ i → i < n → (l ++ List.replicate (n - m) x)[i]?
        = (l ++ List.replicate (n - m) x)[m - 1]? := by
    intro l x hl hx
    refine ⟨by simp [hl]; omega, fun i hi1 hi2 => ?_⟩
    rw [padded_getElem l x m n hm hl hx i hi1 hi2,
      padded_getElem l x m n hm hl hx (m - 1) (le_refl _) (by omega)]
  refine ⟨s', hs', ?_, ?_, ?_, ?_, ?_⟩
  · rw [e1]; exact key _ _ l1 h1
  · rw [e2]; exact key _ _ l2 h2
  · rw [e3]; exact key _ _ l3 h3
  · rw [e4]; exact key _ _ l4 h4
  · rw [e6 hw]
    refine ⟨by simp, fun i hi1 hi2 => ?_⟩
    rw [List.getElem?_replicate, List.getElem?_replicate, if_pos hi2, if_pos (by omega)]

/-- C11 (amended), at three styles for four contours. -/
theorem setStyle_padding_witness :
    ∃ s', setStyle (selfEmpty 4) [1, 2, 3] [4, 5, 6] [7, 8, 9] [10, 11, 12] = Except.ok s' ∧
      (s'.m_linecolor.length = 4 ∧
        ∀ i, 3 - 1 ≤ i → i < 4 → s'.m_linecolor[i]? = s'.m_linecolor[3 - 1]?) ∧
      (s'.m_linestyle.length = 4 ∧
        ∀ i, 3 - 1 ≤ i → i < 4 → s'.m_linestyle[i]? = s'.m_linestyle[3 - 1]?) ∧
      (s'.m_fillcolor.length = 4 ∧
        ∀ i, 3 - 1 ≤ i → i < 4 → s'.m_fillcolor[i]? = s'.m_fillcolor[3 - 1]?) ∧
      (s'.m_fillstyle.length = 4 ∧
        ∀ i, 3 - 1 ≤ i → i < 4 → s'.m_fillstyle[i]? = s'.m_fillstyle[3 - 1]?) ∧
      (s'.m_linewidth.length = 4 ∧
        ∀ i, 3 - 1 ≤ i → i < 4 → s'.m_linewidth[i]? = s'.m_linewidth[3 - 1]?) :=
  setStyle_padding (selfEmpty 4) [1, 2, 3] [4, 5, 6] [7, 8, 9] [10, 11, 12] 3 4
    (by decide) (by decide) (by decide) rfl rfl rfl rfl rfl rfl

/-- C12 (as stated, refuted): with no style entry at all (`m = 0`) and one
contour requested, `setStyle` reads `m_linecolor[-1]`, out of range. -/
theorem setStyle_recovers_counterexample :
    setStyle (selfEmpty 1) [] [] [] [] = Except.error (Fault.styleIndex (-1)) := rfl

/-- C12 (amended): with four style sequences of common length `m`, `1 ≤ m < n`,
`setStyle` makes no out-of-range access and returns; each of the four supplied
sequences is stored padded to length `n` by copies of its last supplied entry
(the one at index `m-1`); the line-width sequence gains `n` entries, and is `n`
entries 2 when it was empty before the call; the contour collection is as it
was. -/
theorem setStyle_recovers (self : ConfidenceContours)
    (linecolor linestyle fillcolor fillstyle : List Int) (m n : Nat)
    (hm : 1 ≤ m) (hmn : m < n) (hint : n < 2 ^ 31)
    (hn : self.m_arg.plotnsigmacont = (n : Int))
    (l1 : linecolor.length = m) (l2 : linestyle.length = m)
    (l3 : fillcolor.length = m) (l4 : fillstyle.length = m) :
    ∃ s', setStyle self linecolor linestyle fillcolor fillstyle = Except.ok s' ∧
      (∃ x, linecolor[m - 1]? = some x ∧
        s'.m_linecolor = linecolor ++ List.replicate (n - m) x) ∧
      (∃ x, linestyle[m - 1]? = some x ∧
        s'.m_linestyle = linestyle ++ List.replicate (n - m) x) ∧
      (∃ x, fillcolor[m - 1]? = some x ∧
        s'.m_fillcolor = fillcolor ++ List.replicate (n - m) x) ∧
      (∃ x, fillstyle[m - 1]? = some x ∧
        s'.m_fillstyle = fillstyle ++ List.replicate (n - m) x) ∧
      s'.m_linecolor.length = n ∧ s'.m_linestyle.length = n ∧
      s'.m_fillcolor.length = n ∧ s'.m_fillstyle.length = n ∧
      s'.m_linewidth.length = self.m_linewidth.length + n ∧
      (self.m_linewidth = [] → s'.m_linewidth = List.replicate n 2) ∧
      s'.m_contours = self.m_contours := by
  obtain ⟨x1, h1⟩ : ∃ x, linecolor[m - 1]? = some x :=
    ⟨_, List.getElem?_eq_getElem (by omega)⟩
  obtain ⟨x2, h2⟩ : ∃ x, linestyle[m - 1]? = some x :=
    ⟨_, List.getElem?_eq_getElem (by omega)⟩
  obtain ⟨x3, h3⟩ : ∃ x, fillcolor[m - 1]? = some x :=
    ⟨_, List.getElem?_eq_getElem (by omega)⟩
  obtain ⟨x4, h4⟩ : ∃ x, fillstyle[m - 1]? = some x :=
    ⟨_, List.getElem?_eq_getElem (by omega)⟩
  obtain ⟨s', hs', -, hc, e1, e2, e3, e4, e5, e6⟩ := setStyle_eq self linecolor linestyle
    fillcolor fillstyle m n hm hmn hint hn x1 x2 x3 x4 h1 h2 h3 h4 l1 l2 l3 l4
  refine ⟨s', hs', ⟨x1, h1, e1⟩, ⟨x2, h2, e2⟩, ⟨x3, h3, e3⟩, ⟨x4, h4, e4⟩, ?_, ?_, ?_, ?_,
    e5, e6, hc⟩
  · rw [e1]; simp [l1]; omega
  · rw [e2]; simp [l2]; omega
  · rw [e3]; simp [l3]; omega
  · rw [e4]; simp [l4]; omega

/-- C12 (amended), at two styles for five contours, on an object that holds line
widths of an earlier call. -/
theorem setStyle_recovers_witness :
    ∃ s', setStyle selfWidths [1, 2] [4, 5] [7, 8] [10, 11] = Except.ok s' ∧
      (∃ x, ([1, 2] : List Int)[2 - 1]? = some x ∧
        s'.m_linecolor = [1, 2] ++ List.replicate (5 - 2) x) ∧
      (∃ x, ([4, 5] : List Int)[2 - 1]? = some x ∧
        s'.m_linestyle = [4, 5] ++ List.replicate (5 - 2) x) ∧
      (∃ x, ([7, 8] : List Int)[2 - 1]? = some x ∧
        s'.m_fillcolor = [7, 8] ++ List.replicate (5 - 2) x) ∧
      (∃ x, ([10, 11] : List Int)[2 - 1]? = some x ∧
        s'.m_fillstyle = [10, 11] ++ List.replicate (5 - 2) x) ∧
      s'.m_linecolor.length = 5 ∧ s'.m_linestyle.length = 5 ∧
      s'.m_fillcolor.length = 5 ∧ s'.m_fillstyle.length = 5 ∧
      s'.m_linewidth.length = selfWidths.m_linewidth.length + 5 ∧
      (selfWidths.m_linewidth = [] → s'.m_linewidth = List.replicate 5 2) ∧
      s'.m_contours = selfWidths.m_contours :=
  setStyle_recovers selfWidths [1, 2] [4, 5] [7, 8] [10, 11] 2 5
    (by decide) (by decide) (by decide) rfl rfl rfl rfl rfl

end ConfidenceContours

namespace TH2F

/-- A running maximum is above its start value and above every element. -/
theorem foldl_max_ge (vs : List ℚ) (v : ℚ) :
    v ≤ vs.foldl max v ∧ ∀ x ∈ vs, x ≤ vs.foldl max v := by
  induction vs generalizing v with
  | nil => simp
  | cons a as ih =>
    simp only [List.foldl_cons, List.mem_cons, forall_eq_or_imp]
    obtain ⟨h1, h2⟩ := ih (max v a)
    exact ⟨(le_max_left _ _).trans h1, (le_max_right _ _).trans h1, h2⟩

/-- A running maximum is its start value or one of the elements. -/
theorem foldl_max_mem (vs : List ℚ) (v : ℚ) : vs.foldl max v ∈ v :: vs := by
  induction vs generalizing v with
  | nil => simp
  | cons a as ih =>
    simp only [List.foldl_cons]
    have := ih (max v a)
    rcases List.mem_cons.1 this with h | h
    · rw [h]
      rcases max_choice v a with h' | h' <;> simp [h']
    · simp [h]

/-- The maximum is an upper bound of the bins. -/
theorem GetMaximum_ge (h : TH2F) (ix iy : Nat) (hx : 1 ≤ ix ∧ ix ≤ h.fXaxis.fNbins)
    (hy : 1 ≤ iy ∧ iy ≤ h.fYaxis.fNbins) : h.fArray ix iy ≤ h.GetMaximum := by
  have hmem : h.fArray ix iy ∈ h.binContents :=
    (mem_binContents h _).2 ⟨ix, iy, hx, hy, rfl⟩
  unfold GetMaximum
  cases hb : h.binContents with
  | nil => simp [hb] at hmem
  | cons v vs =>
    rw [hb] at hmem
    rcases List.mem_cons.1 hmem with e | e
    · rw [e]
      exact (foldl_max_ge vs v).1
    · exact (foldl_max_ge vs v).2 _ e

/-- The maximum of a grid with at least one bin is the content of a bin. -/
theorem GetMaximum_attained (h : TH2F) (hx : 1 ≤ h.fXaxis.fNbins) (hy : 1 ≤ h.fYaxis.fNbins) :
    ∃ ix iy, (1 ≤ ix ∧ ix ≤ h.fXaxis.fNbins) ∧ (1 ≤ iy ∧ iy ≤ h.fYaxis.fNbins) ∧
      h.fArray ix iy = h.GetMaximum := by
  have hmem : h.fArray 1 1 ∈ h.binContents :=
    (mem_binContents h _).2 ⟨1, 1, ⟨le_refl _, hx⟩, ⟨le_refl _, hy⟩, rfl⟩
  apply (mem_binContents h _).1
  unfold GetMaximum
  cases hb : h.binContents with
  | nil => simp [hb] at hmem
  | cons v vs => exact foldl_max_mem vs v

/-- A lower bound of the bins that a bin attains is the minimum. -/
theorem GetMinimum_eq_of (h : TH2F) (c : ℚ)
    (hle : ∀ ix iy, 1 ≤ ix ∧ ix ≤ h.fXaxis.fNbins → 1 ≤ iy ∧ iy ≤ h.fYaxis.fNbins →
      c ≤ h.fArray ix iy)
    (hat : ∃ ix iy, (1 ≤ ix ∧ ix ≤ h.fXaxis.fNbins) ∧ (1 ≤ iy ∧ iy ≤ h.fYaxis.fNbins) ∧
      h.fArray ix iy = c) : h.GetMinimum = c := by
  obtain ⟨ix, iy, hx, hy, e⟩ := hat
  obtain ⟨jx, jy, gx, gy, e2⟩ := GetMinimum_attained h (by omega) (by omega)
  apply le_antisymm
  · rw [← e]
    exact GetMinimum_le h ix iy hx hy
  · rw [← e2]
    exact hle jx jy gx gy

/-- An upper bound of the bins that a bin attains is the maximum. -/
theorem GetMaximum_eq_of (h : TH2F) (c : ℚ)
    (hge : ∀ ix iy, 1 ≤ ix ∧ ix ≤ h.fXaxis.fNbins → 1 ≤ iy ∧ iy ≤ h.fYaxis.fNbins →
      h.fArray ix iy ≤ c)
    (hat : ∃ ix iy, (1 ≤ ix ∧ ix ≤ h.fXaxis.fNbins) ∧ (1 ≤ iy ∧ iy ≤ h.fYaxis.fNbins) ∧
      h.fArray ix iy = c) : h.GetMaximum = c := by
  obtain ⟨ix, iy, hx, hy, e⟩ := hat
  obtain ⟨jx, jy, gx, gy, e2⟩ := GetMaximum_attained h (by omega) (by omega)
  apply le_antisymm
  · rw [← e2]
    exact hge jx jy gx gy
  · rw [← e]
    exact GetMaximum_ge h ix iy hx hy

end TH2F

namespace ConfidenceContours

/-- The content of a bin after `transformChi2valleyToHill`. -/
theorem transform_bin (hist : TH2F) (offset : ℚ) (ix iy : Nat)
    (hx : 1 ≤ ix ∧ ix ≤ hist.fXaxis.fNbins) (hy : 1 ≤ iy ∧ iy ≤ hist.fYaxis.fNbins) :
    (transformChi2valleyToHill hist offset).fArray ix iy
      = hillContent offset (toFloat hist.GetMinimum) (hist.fArray ix iy) := by
  rw [transformChi2valleyToHill_eq]
  simp only
  rw [if_pos ⟨hx, hy⟩]

/-- The axes after `transformChi2valleyToHill`. -/
theorem transform_axes (hist : TH2F) (offset : ℚ) :
    (transformChi2valleyToHill hist offset).fXaxis = hist.fXaxis ∧
    (transformChi2valleyToHill hist offset).fYaxis = hist.fYaxis := by
  rw [transformChi2valleyToHill_eq]
  exact ⟨rfl, rfl⟩

/-- The minimum of a grid of floats is a float. -/
theorem toFloat_GetMinimum (hist : TH2F) (hx : 1 ≤ hist.fXaxis.fNbins)
    (hy : 1 ≤ hist.fYaxis.fNbins) (hf : hist.holdsFloats) :
    toFloat hist.GetMinimum = hist.GetMinimum := by
  obtain ⟨ix, iy, gx, gy, e⟩ := TH2F.GetMinimum_attained hist hx hy
  rw [← e]
  exact hf ix iy gx gy

/-- The minimum of a grid is bounded as its contents are. -/
theorem abs_GetMinimum_le (hist : TH2F) (hx : 1 ≤ hist.fXaxis.fNbins)
    (hy : 1 ≤ hist.fYaxis.fNbins) (B : ℚ) (hb : hist.boundedBy B) :
    |hist.GetMinimum| ≤ B := by
  obtain ⟨ix, iy, gx, gy, e⟩ := TH2F.GetMinimum_attained hist hx hy
  rw [← e]
  exact hb ix iy gx gy

/-- With contents and offset below `2 ^ 125` in magnitude, no stored content
exceeds `2 ^ 127`. -/
theorem transform_bin_abs_le (hist : TH2F) (offset : ℚ) (ix iy : Nat)
    (hx : 1 ≤ ix ∧ ix ≤ hist.fXaxis.fNbins) (hy : 1 ≤ iy ∧ iy ≤ hist.fYaxis.fNbins)
    (hb : hist.boundedBy (2 ^ 125)) (ho : |offset| ≤ 2 ^ 125) :
    |(transformChi2valleyToHill hist offset).fArray ix iy| ≤ 2 ^ 127 := by
  rw [transform_bin hist offset ix iy hx hy]
  apply hillContent_abs_le _ _ _ ho _ (hb ix iy hx hy)
  have e : (2 : ℚ) ^ 125 = 2 ^ (125 : ℤ) := by norm_num
  rw [e]
  apply toFloat_abs_le _ 125 (by norm_num)
  rw [← e]
  exact abs_GetMinimum_le hist (by omega) (by omega) _ hb

/-- The transform reverses the order of bin contents, weakly. -/
theorem transform_anti (hist : TH2F) (offset : ℚ) (ix iy jx jy : Nat)
    (hix : 1 ≤ ix ∧ ix ≤ hist.fXaxis.fNbins) (hiy : 1 ≤ iy ∧ iy ≤ hist.fYaxis.fNbins)
    (hjx : 1 ≤ jx ∧ jx ≤ hist.fXaxis.fNbins) (hjy : 1 ≤ jy ∧ jy ≤ hist.fYaxis.fNbins)
    (hle : hist.fArray ix iy ≤ hist.fArray jx jy) :
    (transformChi2valleyToHill hist offset).fArray jx jy
      ≤ (transformChi2valleyToHill hist offset).fArray ix iy := by
  rw [transform_bin hist offset ix iy hix hiy, transform_bin hist offset jx jy hjx hjy]
  exact hillContent_anti _ _ hle

/-- The maximum after `transformChi2valleyToHill`: the image of the old
minimum. -/
theorem transform_maximum (hist : TH2F) (offset : ℚ)
    (hx : 1 ≤ hist.fXaxis.fNbins) (hy : 1 ≤ hist.fYaxis.fNbins) :
    (transformChi2valleyToHill hist offset).GetMaximum
      = hillContent offset (toFloat hist.GetMinimum) hist.GetMinimum := by
  obtain ⟨ax1, ax2⟩ := transform_axes hist offset
  apply TH2F.GetMaximum_eq_of
  · intro ix iy gx gy
    rw [ax1] at gx
    rw [ax2] at gy
    rw [transform_bin hist offset ix iy gx gy]
    exact hillContent_anti _ _ (TH2F.GetMinimum_le hist ix iy gx gy)
  · obtain ⟨ix, iy, gx, gy, e⟩ := TH2F.GetMinimum_attained hist hx hy
    refine ⟨ix, iy, by rw [ax1]; exact gx, by rw [ax2]; exact gy, ?_⟩
    rw [transform_bin hist offset ix iy gx gy, e]

/-- The minimum after `transformChi2valleyToHill`: the image of the old
maximum. -/
theorem transform_minimum (hist : TH2F) (offset : ℚ)
    (hx : 1 ≤ hist.fXaxis.fNbins) (hy : 1 ≤ hist.fYaxis.fNbins) :
    (transformChi2valleyToHill hist offset).GetMinimum
      = hillContent offset (toFloat hist.GetMinimum) hist.GetMaximum := by
  obtain ⟨ax1, ax2⟩ := transform_axes hist offset
  apply TH2F.GetMinimum_eq_of
  · intro ix iy gx gy
    rw [ax1] at gx
    rw [ax2] at gy
    rw [transform_bin hist offset ix iy gx gy]
    exact hillContent_anti _ _ (TH2F.GetMaximum_ge hist ix iy gx gy)
  · obtain ⟨ix, iy, gx, gy, e⟩ := TH2F.GetMaximum_attained hist hx hy
    refine ⟨ix, iy, by rw [ax1]; exact gx, by rw [ax2]; exact gy, ?_⟩
    rw [transform_bin hist offset ix iy gx gy, e]

/-- The evaluation is exact on multiples of one power of two with multipliers of
magnitude at most `2 ^ 22`. -/
theorem hillContent_lattice (a b c k : ℤ) (hk : -149 ≤ k) (ha : |a| ≤ 2 ^ 22)
    (hb : |b| ≤ 2 ^ 22) (hc : |c| ≤ 2 ^ 22) :
    hillContent ((b : ℚ) * 2 ^ k) (toFloat ((c : ℚ) * 2 ^ k)) ((a : ℚ) * 2 ^ k)
      = (b : ℚ) * 2 ^ k + (c : ℚ) * 2 ^ k - (a : ℚ) * 2 ^ k := by
  obtain ⟨a1, a2⟩ := abs_le.1 ha
  obtain ⟨b1, b2⟩ := abs_le.1 hb
  obtain ⟨c1, c2⟩ := abs_le.1 hc
  norm_num at a1 a2 b1 b2 c1 c2
  rw [toFloat_dyadic c k (abs_lt.2 ⟨by norm_num; omega, by norm_num; omega⟩) hk]
  exact hillContent_dyadic a b c k hk (abs_lt.2 ⟨by norm_num; omega, by norm_num; omega⟩)
    (abs_lt.2 ⟨by norm_num; omega, by norm_num; omega⟩)

/-- The minimum of a grid on a lattice is on the lattice. -/
theorem onLattice_GetMinimum (hist : TH2F) (hx : 1 ≤ hist.fXaxis.fNbins)
    (hy : 1 ≤ hist.fYaxis.fNbins) (k B : ℤ) (hl : hist.onLattice k B) :
    ∃ c : ℤ, |c| ≤ B ∧ hist.GetMinimum = (c : ℚ) * 2 ^ k := by
  obtain ⟨ix, iy, gx, gy, e⟩ := TH2F.GetMinimum_attained hist hx hy
  rw [← e]
  exact hl ix iy gx gy

/-- The maximum of a grid on a lattice is on the lattice. -/
theorem onLattice_GetMaximum (hist : TH2F) (hx : 1 ≤ hist.fXaxis.fNbins)
    (hy : 1 ≤ hist.fYaxis.fNbins) (k B : ℤ) (hl : hist.onLattice k B) :
    ∃ c : ℤ, |c| ≤ B ∧ hist.GetMaximum = (c : ℚ) * 2 ^ k := by
  obtain ⟨ix, iy, gx, gy, e⟩ := TH2F.GetMaximum_attained hist hx hy
  rw [← e]
  exact hl ix iy gx gy

/-- On a lattice grid the content of a bin after `transformChi2valleyToHill` is
`offset + chi2min - v`. -/
theorem transform_bin_exact (hist : TH2F) (offset : ℚ) (k b : ℤ) (hk : -149 ≤ k)
    (hb : |b| ≤ 2 ^ 22) (ho : offset = (b : ℚ) * 2 ^ k) (hl : hist.onLattice k (2 ^ 22))
    (ix iy : Nat)
    (hx : 1 ≤ ix ∧ ix ≤ hist.fXaxis.fNbins) (hy : 1 ≤ iy ∧ iy ≤ hist.fYaxis.fNbins) :
    (transformChi2valleyToHill hist offset).fArray ix iy
      = offset + hist.GetMinimum - hist.fArray ix iy := by
  obtain ⟨c, hc, hm⟩ := onLattice_GetMinimum hist (by omega) (by omega) k _ hl
  obtain ⟨a, ha, hv⟩ := hl ix iy hx hy
  simp only [TH2F.GetBinContent] at hv
  rw [transform_bin hist offset ix iy hx hy, hv, hm, ho]
  exact hillContent_lattice a b c k hk ha hb hc

/-- On a lattice grid the minimum after `transformChi2valleyToHill` is
`offset + chi2min - M`, with `M` the old maximum. -/
theorem transform_minimum_exact (hist : TH2F) (offset : ℚ) (k b : ℤ) (hk : -149 ≤ k)
    (hb : |b| ≤ 2 ^ 22) (ho : offset = (b : ℚ) * 2 ^ k) (hl : hist.onLattice k (2 ^ 22))
    (hx : 1 ≤ hist.fXaxis.fNbins) (hy : 1 ≤ hist.fYaxis.fNbins) :
    (transformChi2valleyToHill hist offset).GetMinimum
      = offset + hist.GetMinimum - hist.GetMaximum := by
  obtain ⟨ix, iy, gx, gy, e⟩ := TH2F.GetMaximum_attained hist hx hy
  rw [transform_minimum hist offset hx hy, ← e, ← transform_bin hist offset ix iy gx gy]
  exact transform_bin_exact hist offset k b hk hb ho hl ix iy gx gy

/-- On a lattice grid the content of a bin after two applications of
`transformChi2valleyToHill` is `v + (offset - M)`: every step of both
evaluations is exact. -/
theorem transform_twice_bin_exact (hist : TH2F) (offset : ℚ) (k b : ℤ) (hk : -149 ≤ k)
    (hb : |b| ≤ 2 ^ 22) (ho : offset = (b : ℚ) * 2 ^ k) (hl : hist.onLattice k (2 ^ 22))
    (hx : 1 ≤ hist.fXaxis.fNbins) (hy : 1 ≤ hist.fYaxis.fNbins) (ix iy : Nat)
    (gx : 1 ≤ ix ∧ ix ≤ hist.fXaxis.fNbins) (gy : 1 ≤ iy ∧ iy ≤ hist.fYaxis.fNbins) :
    (transformChi2valleyToHill (transformChi2valleyToHill hist offset) offset).fArray ix iy
      = hist.fArray ix iy + (offset - hist.GetMaximum) := by
  obtain ⟨ax1, ax2⟩ := transform_axes hist offset
  obtain ⟨c, hc, hm⟩ := onLattice_GetMinimum hist hx hy k _ hl
  obtain ⟨M, hM, hmax⟩ := onLattice_GetMaximum hist hx hy k _ hl
  obtain ⟨a, ha, hv⟩ := hl ix iy gx gy
  simp only [TH2F.GetBinContent] at hv
  obtain ⟨a1, a2⟩ := abs_le.1 ha
  obtain ⟨b1, b2⟩ := abs_le.1 hb
  obtain ⟨c1, c2⟩ := abs_le.1 hc
  obtain ⟨M1, M2⟩ := abs_le.1 hM
  norm_num at a1 a2 b1 b2 c1 c2 M1 M2
  have e1 : (transformChi2valleyToHill hist offset).fArray ix iy
      = ((b + c - a : ℤ) : ℚ) * 2 ^ k := by
    rw [transform_bin_exact hist offset k b hk hb ho hl ix iy gx gy, hv, hm, ho]
    push_cast
    ring
  have e2 : (transformChi2valleyToHill hist offset).GetMinimum
      = ((b + c - M : ℤ) : ℚ) * 2 ^ k := by
    rw [transform_minimum_exact hist offset k b hk hb ho hl hx hy, hmax, hm, ho]
    push_cast
    ring
  rw [transform_bin _ offset ix iy (by rw [ax1]; exact gx) (by rw [ax2]; exact gy), e1, e2,
    toFloat_dyadic _ k (abs_lt.2 ⟨by norm_num; omega, by norm_num; omega⟩) hk, ho,
    hillContent_dyadic _ b _ k hk (abs_lt.2 ⟨by norm_num; omega, by norm_num; omega⟩)
      (abs_lt.2 ⟨by norm_num; omega, by norm_num; omega⟩), hv, hmax]
  push_cast
  ring

/-- The sample grid holds integers. -/
theorem gridSample_onLattice : gridSample.onLattice 0 (2 ^ 22) := by
  intro ix iy _ _
  simp only [TH2F.GetBinContent, gridSample]
  split_ifs
  exacts [⟨4, by norm_num, by norm_num⟩, ⟨1, by norm_num, by norm_num⟩,
    ⟨7, by norm_num, by norm_num⟩, ⟨9, by norm_num, by norm_num⟩,
    ⟨1, by norm_num, by norm_num⟩, ⟨3, by norm_num, by norm_num⟩]

/-- The sample grid holds small numbers. -/
theorem gridSample_boundedBy : gridSample.boundedBy (2 ^ 125) := by
  intro ix iy _ _
  simp only [TH2F.GetBinContent, gridSample]
  split_ifs <;> norm_num [abs_le]

/-- C7 (as stated, refuted): on the grid of floats `0`, `0.1f` with offset 30 the
minimum is 0 and the bin that held `0.1f` = 13421773 / 134217728 gets
15676211 / 524288 = 29.899999618530273, the float nearest to `30 - 0.1f`, and
not `offset + chi2min - v` = 4013110067 / 134217728. -/
theorem transformChi2valleyToHill_bins_counterexample :
    gridTenth.holdsFloats ∧ toFloat offset = offset ∧
    gridTenth.GetBinContent 1 2 = 13421773 / 134217728 ∧
    gridTenth.GetMinimum = 0 ∧
    (transformChi2valleyToHill gridTenth offset).GetBinContent 1 2 = 15676211 / 524288 ∧
    offset + gridTenth.GetMinimum - gridTenth.GetBinContent 1 2 = 4013110067 / 134217728 ∧
    (transformChi2valleyToHill gridTenth offset).GetBinContent 1 2
      ≠ offset + gridTenth.GetMinimum - gridTenth.GetBinContent 1 2 := by
  refine ⟨?_, by decide!, by decide!, by decide!, by decide!, by decide!, by decide!⟩
  intro ix iy _ _
  simp only [TH2F.GetBinContent, gridTenth]
  split_ifs <;> decide!

/-- C7 (amended): for a grid and an offset of magnitude at most `2 ^ 125`,
`transformChi2valleyToHill` replaces the content `v` of every bin by the value
of `-v + offset + chi2min` as the program computes it: both additions in
`double`, each rounded, the result rounded to `float` when stored, and no step
overflows; `chi2min` is the minimum of the grid as it was before the call,
stored in a `float` (for a grid of floats that is the minimum itself).  The
stored value is `offset + chi2min - v` when the offset and all contents are
multiples of one power of two `2 ^ k`, `k ≥ -149`, with integer multipliers of
magnitude at most `2 ^ 22`.  Bin counts and axes are unchanged. -/
theorem transformChi2valleyToHill_bins (hist : TH2F) (offset : ℚ)
    (hb : hist.boundedBy (2 ^ 125)) (ho : |offset| ≤ 2 ^ 125) :
    (∀ ix iy, 1 ≤ ix ∧ ix ≤ hist.GetNbinsX → 1 ≤ iy ∧ iy ≤ hist.GetNbinsY →
      (transformChi2valleyToHill hist offset).GetBinContent ix iy
        = toFloat (toDouble (toDouble (-hist.GetBinContent ix iy + offset)
            + toFloat hist.GetMinimum)) ∧
      |(transformChi2valleyToHill hist offset).GetBinContent ix iy| ≤ 2 ^ 127) ∧
    (1 ≤ hist.GetNbinsX → 1 ≤ hist.GetNbinsY → hist.holdsFloats →
      toFloat hist.GetMinimum = hist.GetMinimum) ∧
    (∀ k b : ℤ, -149 ≤ k → |b| ≤ 2 ^ 22 → offset = (b : ℚ) * 2 ^ k →
      hist.onLattice k (2 ^ 22) →
      ∀ ix iy, 1 ≤ ix ∧ ix ≤ hist.GetNbinsX → 1 ≤ iy ∧ iy ≤ hist.GetNbinsY →
        (transformChi2valleyToHill hist offset).GetBinContent ix iy
          = offset + hist.GetMinimum - hist.GetBinContent ix iy) ∧
    (transformChi2valleyToHill hist offset).GetNbinsX = hist.GetNbinsX ∧
    (transformChi2valleyToHill hist offset).GetNbinsY = hist.GetNbinsY ∧
    (transformChi2valleyToHill hist offset).GetXaxis = hist.GetXaxis ∧
    (transformChi2valleyToHill hist offset).GetYaxis = hist.GetYaxis := by
  obtain ⟨ax1, ax2⟩ := transform_axes hist offset
  refine ⟨?_, ?_, ?_, ?_, ?_, ax1, ax2⟩
  · intro ix iy gx gy
    exact ⟨transform_bin hist offset ix iy gx gy,
      transform_bin_abs_le hist offset ix iy gx gy hb ho⟩
  · intro hx hy hf
    exact toFloat_GetMinimum hist hx hy hf
  · intro k b hk hb2 hob hl ix iy gx gy
    exact transform_bin_exact hist offset k b hk hb2 hob hl ix iy gx gy
  · simp only [TH2F.GetNbinsX, TH2F.GetXaxis, ax1]
  · simp only [TH2F.GetNbinsY, TH2F.GetYaxis, ax2]

/-- C7 (amended), on the 2 x 3 sample grid with offset 30. -/
theorem transformChi2valleyToHill_bins_witness :
    (gridSample.boundedBy (2 ^ 125) ∧ |(30 : ℚ)| ≤ 2 ^ 125) ∧
    (∀ ix iy, 1 ≤ ix ∧ ix ≤ gridSample.GetNbinsX → 1 ≤ iy ∧ iy ≤ gridSample.GetNbinsY →
      (transformChi2valleyToHill gridSample 30).GetBinContent ix iy
        = toFloat (toDouble (toDouble (-gridSample.GetBinContent ix iy + 30)
            + toFloat gridSample.GetMinimum)) ∧
      |(transformChi2valleyToHill gridSample 30).GetBinContent ix iy| ≤ 2 ^ 127) ∧
    (1 ≤ gridSample.GetNbinsX → 1 ≤ gridSample.GetNbinsY → gridSample.holdsFloats →
      toFloat gridSample.GetMinimum = gridSample.GetMinimum) ∧
    (∀ k b : ℤ, -149 ≤ k → |b| ≤ 2 ^ 22 → (30 : ℚ) = (b : ℚ) * 2 ^ k →
      gridSample.onLattice k (2 ^ 22) →
      ∀ ix iy, 1 ≤ ix ∧ ix ≤ gridSample.GetNbinsX → 1 ≤ iy ∧ iy ≤ gridSample.GetNbinsY →
        (transformChi2valleyToHill gridSample 30).GetBinContent ix iy
          = 30 + gridSample.GetMinimum - gridSample.GetBinContent ix iy) ∧
    (transformChi2valleyToHill gridSample 30).GetNbinsX = gridSample.GetNbinsX ∧
    (transformChi2valleyToHill gridSample 30).GetNbinsY = gridSample.GetNbinsY ∧
    (transformChi2valleyToHill gridSample 30).GetXaxis = gridSample.GetXaxis ∧
    (transformChi2valleyToHill gridSample 30).GetYaxis = gridSample.GetYaxis :=
  ⟨⟨gridSample_boundedBy, by norm_num [abs_le]⟩,
    transformChi2valleyToHill_bins gridSample 30 gridSample_boundedBy (by norm_num [abs_le])⟩

/-- C8 (as stated, refuted): on the grid of floats `1e17f`, `2e17f` with offset
30 the bin that held the minimum holds 32, not 30, and 32 is the maximum of the
transformed grid; on the grid of floats `0`, `1e-7f` the bin that held `1e-7f`,
not the minimum, holds the new maximum 30 as well. -/
theorem transformChi2valleyToHill_hill_counterexample :
    (offset = 30 ∧ gridHuge.holdsFloats ∧
      gridHuge.GetBinContent 1 1 = gridHuge.GetMinimum ∧
      (transformChi2valleyToHill gridHuge offset).GetBinContent 1 1 = 32 ∧
      (transformChi2valleyToHill gridHuge offset).GetMaximum = 32) ∧
    (gridTiny.holdsFloats ∧
      gridTiny.GetBinContent 1 2 ≠ gridTiny.GetMinimum ∧
      (transformChi2valleyToHill gridTiny offset).GetBinContent 1 2 = 30 ∧
      (transformChi2valleyToHill gridTiny offset).GetMaximum = 30) := by
  refine ⟨⟨rfl, ?_, by decide!, by decide!, by decide!⟩,
    ⟨?_, by decide!, by decide!, by decide!⟩⟩
  · intro ix iy _ _
    simp only [TH2F.GetBinContent, gridHuge]
    split_ifs <;> decide!
  · intro ix iy _ _
    simp only [TH2F.GetBinContent, gridTiny]
    split_ifs <;> decide!

/-- C8 (amended): on a grid with at least one bin, contents and offset of
magnitude at most `2 ^ 125`, `transformChi2valleyToHill` reverses the order of
bin contents weakly (old `v1 ≤ v2` gives new `v1 ≥ v2`), so every bin that held
the minimum holds the maximum of the transformed grid; that maximum is the
value of `-chi2min + offset + chi2min` as the program computes it, and does
not overflow.  When the offset and all contents are multiples of one power of
two `2 ^ k`, `k ≥ -149`, with integer multipliers of magnitude at most
`2 ^ 22`, the maximum is exactly `offset`: every bin that held the minimum
holds `offset`, no bin holds more, one holds it, and the bins holding `offset`
are exactly the bins of the old minimum. -/
theorem transformChi2valleyToHill_hill (hist : TH2F) (offset : ℚ)
    (hx : 1 ≤ hist.GetNbinsX) (hy : 1 ≤ hist.GetNbinsY)
    (hb : hist.boundedBy (2 ^ 125)) (ho : |offset| ≤ 2 ^ 125) :
    (∀ ix iy jx jy, 1 ≤ ix ∧ ix ≤ hist.GetNbinsX → 1 ≤ iy ∧ iy ≤ hist.GetNbinsY →
      1 ≤ jx ∧ jx ≤ hist.GetNbinsX → 1 ≤ jy ∧ jy ≤ hist.GetNbinsY →
      hist.GetBinContent ix iy ≤ hist.GetBinContent jx jy →
      (transformChi2valleyToHill hist offset).GetBinContent jx jy
        ≤ (transformChi2valleyToHill hist offset).GetBinContent ix iy) ∧
    (∀ ix iy, 1 ≤ ix ∧ ix ≤ hist.GetNbinsX → 1 ≤ iy ∧ iy ≤ hist.GetNbinsY →
      hist.GetBinContent ix iy = hist.GetMinimum →
      (transformChi2valleyToHill hist offset).GetBinContent ix iy
        = (transformChi2valleyToHill hist offset).GetMaximum) ∧
    (transformChi2valleyToHill hist offset).GetMaximum
      = toFloat (toDouble (toDouble (-hist.GetMinimum + offset) + toFloat hist.GetMinimum)) ∧
    |(transformChi2valleyToHill hist offset).GetMaximum| ≤ 2 ^ 127 ∧
    (∀ k b : ℤ, -149 ≤ k → |b| ≤ 2 ^ 22 → offset = (b : ℚ) * 2 ^ k →
      hist.onLattice k (2 ^ 22) →
      (transformChi2valleyToHill hist offset).GetMaximum = offset ∧
      (∀ ix iy, 1 ≤ ix ∧ ix ≤ hist.GetNbinsX → 1 ≤ iy ∧ iy ≤ hist.GetNbinsY →
        hist.GetBinContent ix iy = hist.GetMinimum →
        (transformChi2valleyToHill hist offset).GetBinContent ix iy = offset) ∧
      (∀ ix iy, 1 ≤ ix ∧ ix ≤ hist.GetNbinsX → 1 ≤ iy ∧ iy ≤ hist.GetNbinsY →
        (transformChi2valleyToHill hist offset).GetBinContent ix iy ≤ offset) ∧
      (∃ ix iy, (1 ≤ ix ∧ ix ≤ hist.GetNbinsX) ∧ (1 ≤ iy ∧ iy ≤ hist.GetNbinsY) ∧
        (transformChi2valleyToHill hist offset).GetBinContent ix iy = offset) ∧
      (∀ ix iy, 1 ≤ ix ∧ ix ≤ hist.GetNbinsX → 1 ≤ iy ∧ iy ≤ hist.GetNbinsY →
        ((transformChi2valleyToHill hist offset).GetBinContent ix iy = offset
          ↔ hist.GetBinContent ix iy = hist.GetMinimum))) := by
  simp only [TH2F.GetNbinsX, TH2F.GetNbinsY, TAxis.GetNbins, TH2F.GetBinContent] at *
  have hmaxbin : ∀ ix iy, 1 ≤ ix ∧ ix ≤ hist.fXaxis.fNbins → 1 ≤ iy ∧ iy ≤ hist.fYaxis.fNbins →
      hist.fArray ix iy = hist.GetMinimum →
      (transformChi2valleyToHill hist offset).fArray ix iy
        = (transformChi2valleyToHill hist offset).GetMaximum := by
    intro ix iy gx gy e
    rw [transform_maximum hist offset hx hy, transform_bin hist offset ix iy gx gy, e]
  refine ⟨?_, hmaxbin, transform_maximum hist offset hx hy, ?_, ?_⟩
  · intro ix iy jx jy hix hiy hjx hjy hle
    exact transform_anti hist offset ix iy jx jy hix hiy hjx hjy hle
  · obtain ⟨ix, iy, gx, gy, e⟩ := TH2F.GetMinimum_attained hist hx hy
    rw [← hmaxbin ix iy gx gy e]
    exact transform_bin_abs_le hist offset ix iy gx gy hb ho
  · intro k b hk hb2 hob hl
    have key : ∀ ix iy, 1 ≤ ix ∧ ix ≤ hist.fXaxis.fNbins → 1 ≤ iy ∧ iy ≤ hist.fYaxis.fNbins →
        (transformChi2valleyToHill hist offset).fArray ix iy
          = offset + hist.GetMinimum - hist.fArray ix iy :=
      fun ix iy gx gy => transform_bin_exact hist offset k b hk hb2 hob hl ix iy gx gy
    refine ⟨?_, ?_, ?_, ?_, ?_⟩
    · obtain ⟨ix, iy, gx, gy, e⟩ := TH2F.GetMinimum_attained hist hx hy
      rw [← hmaxbin ix iy gx gy e, key ix iy gx gy, e]
      ring
    · intro ix iy hix hiy hmin
      rw [key ix iy hix hiy, hmin]
      ring
    · intro ix iy hix hiy
      rw [key ix iy hix hiy]
      have := TH2F.GetMinimum_le hist ix iy hix hiy
      linarith
    · obtain ⟨ix, iy, hix, hiy, hmin⟩ := TH2F.GetMinimum_attained hist hx hy
      refine ⟨ix, iy, hix, hiy, ?_⟩
      rw [key ix iy hix hiy, hmin]
      ring
    · intro ix iy hix hiy
      rw [key ix iy hix hiy]
      constructor <;> intro h <;> linarith

/-- C8 (amended), on the 2 x 3 sample grid with offset 30. -/
theorem transformChi2valleyToHill_hill_witness :
    (1 ≤ gridSample.GetNbinsX ∧ 1 ≤ gridSample.GetNbinsY ∧
      gridSample.boundedBy (2 ^ 125) ∧ |(30 : ℚ)| ≤ 2 ^ 125) ∧
    (∀ ix iy jx jy, 1 ≤ ix ∧ ix ≤ gridSample.GetNbinsX → 1 ≤ iy ∧ iy ≤ gridSample.GetNbinsY →
      1 ≤ jx ∧ jx ≤ gridSample.GetNbinsX → 1 ≤ jy ∧ jy ≤ gridSample.GetNbinsY →
      gridSample.GetBinContent ix iy ≤ gridSample.GetBinContent jx jy →
      (transformChi2valleyToHill gridSample 30).GetBinContent jx jy
        ≤ (transformChi2valleyToHill gridSample 30).GetBinContent ix iy) ∧
    (∀ ix iy, 1 ≤ ix ∧ ix ≤ gridSample.GetNbinsX → 1 ≤ iy ∧ iy ≤ gridSample.GetNbinsY →
      gridSample.GetBinContent ix iy = gridSample.GetMinimum →
      (transformChi2valleyToHill gridSample 30).GetBinContent ix iy
        = (transformChi2valleyToHill gridSample 30).GetMaximum) ∧
    (transformChi2valleyToHill gridSample 30).GetMaximum
      = toFloat (toDouble (toDouble (-gridSample.GetMinimum + 30)
          + toFloat gridSample.GetMinimum)) ∧
    |(transformChi2valleyToHill gridSample 30).GetMaximum| ≤ 2 ^ 127 ∧
    (∀ k b : ℤ, -149 ≤ k → |b| ≤ 2 ^ 22 → (30 : ℚ) = (b : ℚ) * 2 ^ k →
      gridSample.onLattice k (2 ^ 22) →
      (transformChi2valleyToHill gridSample 30).GetMaximum = 30 ∧
      (∀ ix iy, 1 ≤ ix ∧ ix ≤ gridSample.GetNbinsX → 1 ≤ iy ∧ iy ≤ gridSample.GetNbinsY →
        gridSample.GetBinContent ix iy = gridSample.GetMinimum →
        (transformChi2valleyToHill gridSample 30).GetBinContent ix iy = 30) ∧
      (∀ ix iy, 1 ≤ ix ∧ ix ≤ gridSample.GetNbinsX → 1 ≤ iy ∧ iy ≤ gridSample.GetNbinsY →
        (transformChi2valleyToHill gridSample 30).GetBinContent ix iy ≤ 30) ∧
      (∃ ix iy, (1 ≤ ix ∧ ix ≤ gridSample.GetNbinsX) ∧ (1 ≤ iy ∧ iy ≤ gridSample.GetNbinsY) ∧
        (transformChi2valleyToHill gridSample 30).GetBinContent ix iy = 30) ∧
      (∀ ix iy, 1 ≤ ix ∧ ix ≤ gridSample.GetNbinsX → 1 ≤ iy ∧ iy ≤ gridSample.GetNbinsY →
        ((transformChi2valleyToHill gridSample 30).GetBinContent ix iy = 30
          ↔ gridSample.GetBinContent ix iy = gridSample.GetMinimum))) :=
  ⟨⟨by decide, by decide, gridSample_boundedBy, by norm_num [abs_le]⟩,
    transformChi2valleyToHill_hill gridSample 30 (by decide) (by decide)
      gridSample_boundedBy (by norm_num [abs_le])⟩

/-- C19 (as stated, refuted): on the grid of floats `0.1f`, `7.3f`, `30`, whose
maximum is the offset 30, two applications of `transformChi2valleyToHill` do
not give back the grid: the bin that held `7.3f` = 7654605 / 1048576 holds
15309211 / 2097152 = 7.3000006675720215. -/
theorem transform_twice_counterexample :
    gridThree.holdsFloats ∧ gridThree.GetMaximum = offset ∧
    gridThree.GetBinContent 1 2 = 7654605 / 1048576 ∧
    (transformChi2valleyToHill (transformChi2valleyToHill gridThree offset) offset).GetBinContent
        1 2 = 15309211 / 2097152 ∧
    (transformChi2valleyToHill (transformChi2valleyToHill gridThree offset) offset).GetBinContent
        1 2 ≠ gridThree.GetBinContent 1 2 + (offset - gridThree.GetMaximum) ∧
    transformChi2valleyToHill (transformChi2valleyToHill gridThree offset) offset
      ≠ gridThree := by
  have hne : (transformChi2valleyToHill
      (transformChi2valleyToHill gridThree offset) offset).GetBinContent 1 2
      ≠ gridThree.GetBinContent 1 2 := by decide!
  refine ⟨?_, by decide!, by decide!, by decide!, by decide!, ?_⟩
  · intro ix iy _ _
    simp only [TH2F.GetBinContent, gridThree]
    split_ifs <;> decide!
  · intro h
    rw [h] at hne
    exact hne rfl

/-- C19 (amended): on a grid with at least one bin and maximum content `M`,
when the offset and all contents are multiples of one power of two `2 ^ k`,
`-149 ≤ k ≤ 100`, with integer multipliers of magnitude at most `2 ^ 22` (every
step of both evaluations is then exact), two applications of
`transformChi2valleyToHill` (each with the then-current minimum) turn every
content `v` into `v + (offset - M)`; they give back the original grid if and
only if `M = offset`; and the transform is not idempotent: on the sample grid
two applications differ from one. -/
theorem transform_twice (hist : TH2F) (offset : ℚ) (k b : ℤ)
    (hx : 1 ≤ hist.GetNbinsX) (hy : 1 ≤ hist.GetNbinsY)
    (hk : -149 ≤ k ∧ k ≤ 100) (hb : |b| ≤ 2 ^ 22) (ho : offset = (b : ℚ) * 2 ^ k)
    (hl : hist.onLattice k (2 ^ 22)) :
    (∀ ix iy, 1 ≤ ix ∧ ix ≤ hist.GetNbinsX → 1 ≤ iy ∧ iy ≤ hist.GetNbinsY →
      (transformChi2valleyToHill (transformChi2valleyToHill hist offset) offset).GetBinContent
          ix iy
        = hist.GetBinContent ix iy + (offset - hist.GetMaximum)) ∧
    (transformChi2valleyToHill (transformChi2valleyToHill hist offset) offset = hist
      ↔ hist.GetMaximum = offset) ∧
    (∃ g : TH2F, ∃ o : ℚ,
      transformChi2valleyToHill (transformChi2valleyToHill g o) o
        ≠ transformChi2valleyToHill g o) := by
  simp only [TH2F.GetNbinsX, TH2F.GetNbinsY, TAxis.GetNbins, TH2F.GetBinContent] at *
  have twice := transform_twice_bin_exact hist offset k b hk.1 hb ho hl hx hy
  refine ⟨fun ix iy gx gy => twice ix iy gx gy, ?_, ?_⟩
  · constructor
    · intro h
      have h1 := twice 1 1 ⟨le_refl _, hx⟩ ⟨le_refl _, hy⟩
      rw [h] at h1
      linarith
    · intro hM
      have hbin : ∀ x y,
          (transformChi2valleyToHill (transformChi2valleyToHill hist offset) offset).fArray x y
            = hist.fArray x y := by
        intro x y
        by_cases hr : (1 ≤ x ∧ x ≤ hist.fXaxis.fNbins) ∧ 1 ≤ y ∧ y ≤ hist.fYaxis.fNbins
        · rw [twice x y hr.1 hr.2, hM]
          ring
        · rw [transformChi2valleyToHill_eq, transformChi2valleyToHill_eq]
          simp only
          rw [if_neg hr, if_neg hr]
      have hrest : (transformChi2valleyToHill (transformChi2valleyToHill hist offset) offset)
          = { hist with fArray :=
              (transformChi2valleyToHill
                (transformChi2valleyToHill hist offset) offset).fArray } := by
        rw [transformChi2valleyToHill_eq, transformChi2valleyToHill_eq]
      rw [hrest]
      have hfun : (transformChi2valleyToHill
          (transformChi2valleyToHill hist offset) offset).fArray = hist.fArray := by
        funext x y
        exact hbin x y
      rw [hfun]
  · refine ⟨gridSample, 30, fun h => ?_⟩
    have h1 : (transformChi2valleyToHill (transformChi2valleyToHill gridSample 30) 30).fArray 1 1
        ≠ (transformChi2valleyToHill gridSample 30).fArray 1 1 := by decide!
    rw [h] at h1
    exact h1 rfl

/-- C19 (amended), on the 2 x 3 sample grid with offset 30. -/
theorem transform_twice_witness :
    (1 ≤ gridSample.GetNbinsX ∧ 1 ≤ gridSample.GetNbinsY ∧
      (-149 ≤ (0 : ℤ) ∧ (0 : ℤ) ≤ 100) ∧ |(30 : ℤ)| ≤ 2 ^ 22 ∧
      (30 : ℚ) = ((30 : ℤ) : ℚ) * 2 ^ (0 : ℤ) ∧ gridSample.onLattice 0 (2 ^ 22)) ∧
    (∀ ix iy, 1 ≤ ix ∧ ix ≤ gridSample.GetNbinsX → 1 ≤ iy ∧ iy ≤ gridSample.GetNbinsY →
      (transformChi2valleyToHill (transformChi2valleyToHill gridSample 30) 30).GetBinContent
          ix iy
        = gridSample.GetBinContent ix iy + (30 - gridSample.GetMaximum)) ∧
    (transformChi2valleyToHill (transformChi2valleyToHill gridSample 30) 30 = gridSample
      ↔ gridSample.GetMaximum = 30) ∧
    (∃ g : TH2F, ∃ o : ℚ,
      transformChi2valleyToHill (transformChi2valleyToHill g o) o
        ≠ transformChi2valleyToHill g o) :=
  ⟨⟨by decide, by decide, by decide, by decide, by norm_num, gridSample_onLattice⟩,
    transform_twice gridSample 30 0 30 (by decide) (by decide) (by decide) (by decide)
      (by norm_num) gridSample_onLattice⟩

end ConfidenceContours

namespace ConfidenceContours

/-- The content of a bin of the padded grid. -/
theorem padded_bin (hist : TH2F) (x y : Nat)
    (hx : 1 ≤ x ∧ x ≤ hist.fXaxis.fNbins + 2) (hy : 1 ≤ y ∧ y ≤ hist.fYaxis.fNbins + 2) :
    (addBoundaryBins hist).hBoundaries.fArray x y
      = padCell hist (hist.fXaxis.fNbins + 2) (hist.fYaxis.fNbins + 2) hist.GetMinimum x y := by
  rw [addBoundaryBins_eq]
  simp only
  rw [if_pos ⟨hx, hy⟩]

/-- The bin counts of the padded grid. -/
theorem padded_nbins (hist : TH2F) :
    (addBoundaryBins hist).hBoundaries.fXaxis.fNbins = hist.fXaxis.fNbins + 2 ∧
    (addBoundaryBins hist).hBoundaries.fYaxis.fNbins = hist.fYaxis.fNbins + 2 := by
  rw [addBoundaryBins_eq]
  exact ⟨rfl, rfl⟩

/-- Every bin of the padded grid lies between the minimum and the maximum of
the source grid. -/
theorem padded_between (hist : TH2F) (hx : 1 ≤ hist.fXaxis.fNbins)
    (hy : 1 ≤ hist.fYaxis.fNbins) (x y : Nat)
    (gx : 1 ≤ x ∧ x ≤ hist.fXaxis.fNbins + 2) (gy : 1 ≤ y ∧ y ≤ hist.fYaxis.fNbins + 2) :
    hist.GetMinimum ≤ (addBoundaryBins hist).hBoundaries.fArray x y ∧
    (addBoundaryBins hist).hBoundaries.fArray x y ≤ hist.GetMaximum := by
  rw [padded_bin hist x y gx gy, padCell]
  split_ifs with hring
  · refine ⟨le_refl _, ?_⟩
    exact (TH2F.GetMinimum_le hist 1 1 ⟨le_refl _, hx⟩ ⟨le_refl _, hy⟩).trans
      (TH2F.GetMaximum_ge hist 1 1 ⟨le_refl _, hx⟩ ⟨le_refl _, hy⟩)
  · exact ⟨TH2F.GetMinimum_le hist _ _ (by omega) (by omega),
      TH2F.GetMaximum_ge hist _ _ (by omega) (by omega)⟩

/-- C20: for a grid with at least one bin, the minimum bin content of the padded
grid is the minimum of the source grid and its maximum is the maximum of the
source grid; every border-ring bin is less than or equal to every bin of the
padded grid. -/
theorem addBoundaryBins_extremes (hist : TH2F)
    (hx : 1 ≤ hist.GetNbinsX) (hy : 1 ≤ hist.GetNbinsY) :
    (addBoundaryBins hist).hBoundaries.GetMinimum = hist.GetMinimum ∧
    (addBoundaryBins hist).hBoundaries.GetMaximum = hist.GetMaximum ∧
    (∀ rx ry bx by_, 1 ≤ rx ∧ rx ≤ hist.GetNbinsX + 2 → 1 ≤ ry ∧ ry ≤ hist.GetNbinsY + 2 →
      (rx = 1 ∨ rx = hist.GetNbinsX + 2 ∨ ry = 1 ∨ ry = hist.GetNbinsY + 2) →
      1 ≤ bx ∧ bx ≤ hist.GetNbinsX + 2 → 1 ≤ by_ ∧ by_ ≤ hist.GetNbinsY + 2 →
      (addBoundaryBins hist).hBoundaries.GetBinContent rx ry
        ≤ (addBoundaryBins hist).hBoundaries.GetBinContent bx by_) := by
  simp only [TH2F.GetNbinsX, TH2F.GetNbinsY, TAxis.GetNbins, TH2F.GetBinContent] at *
  obtain ⟨nx, ny⟩ := padded_nbins hist
  refine ⟨?_, ?_, ?_⟩
  · apply TH2F.GetMinimum_eq_of
    · intro ix iy gx gy
      rw [nx] at gx
      rw [ny] at gy
      exact (padded_between hist hx hy ix iy gx gy).1
    · refine ⟨1, 1, by rw [nx]; omega, by rw [ny]; omega, ?_⟩
      rw [padded_bin hist 1 1 (by omega) (by omega), padCell, if_pos (Or.inl rfl)]
  · apply TH2F.GetMaximum_eq_of
    · intro ix iy gx gy
      rw [nx] at gx
      rw [ny] at gy
      exact (padded_between hist hx hy ix iy gx gy).2
    · obtain ⟨jx, jy, gx, gy, e⟩ := TH2F.GetMaximum_attained hist hx hy
      refine ⟨jx + 1, jy + 1, by rw [nx]; omega, by rw [ny]; omega, ?_⟩
      rw [padded_bin hist (jx + 1) (jy + 1) (by omega) (by omega), padCell,
        if_neg (by omega)]
      simpa using e
  · intro rx ry bx by_ grx gry hring gbx gby
    rw [padded_bin hist rx ry grx gry, padCell, if_pos hring]
    exact (padded_between hist hx hy bx by_ gbx gby).1

/-- C20, on the 2 x 3 sample grid. -/
theorem addBoundaryBins_extremes_witness :
    (addBoundaryBins gridSample).hBoundaries.GetMinimum = gridSample.GetMinimum ∧
    (addBoundaryBins gridSample).hBoundaries.GetMaximum = gridSample.GetMaximum ∧
    (∀ rx ry bx by_, 1 ≤ rx ∧ rx ≤ gridSample.GetNbinsX + 2 →
      1 ≤ ry ∧ ry ≤ gridSample.GetNbinsY + 2 →
      (rx = 1 ∨ rx = gridSample.GetNbinsX + 2 ∨ ry = 1 ∨ ry = gridSample.GetNbinsY + 2) →
      1 ≤ bx ∧ bx ≤ gridSample.GetNbinsX + 2 → 1 ≤ by_ ∧ by_ ≤ gridSample.GetNbinsY + 2 →
      (addBoundaryBins gridSample).hBoundaries.GetBinContent rx ry
        ≤ (addBoundaryBins gridSample).hBoundaries.GetBinContent bx by_) :=
  addBoundaryBins_extremes gridSample (by decide) (by decide)

/-- C15 (as stated, refuted): after `computeContours` on the chi2 sample grid the
caller's bin (1, 1), which held 4, holds 30 + 1 - 4 = 27. -/
theorem computeContours_grid_counterexample :
    ∃ s', computeContours envSample stateSample histogramType.kChi2 = some s' ∧
      stateSample.hist.GetBinContent 1 1 = 4 ∧ s'.hist.GetBinContent 1 1 = 27 := by
  refine ⟨_, computeContours_no_magnetic envSample stateSample histogramType.kChi2 rfl,
    by decide, ?_⟩
  have h2 : (transformChi2valleyToHill gridSample offset).fArray 1 1 = 27 := by decide!
  simp only [TH2F.GetBinContent, stateSample, if_true]
  exact h2

/-- C15 (amended): `computeContours` pads a derived copy, and for a p-value
surface the caller's grid is the same after the call as before it.  For a chi2
surface the caller's grid is transformed in place: with contents of magnitude
at most `2 ^ 125` every bin `v` becomes the value of `-v + 30 + chi2min` as the
program computes it (both additions in `double`, the result stored as `float`),
which is `30 + chi2min - v` when 30 and all contents are multiples of one power
of two `2 ^ k`, `k ≥ -149`, with integer multipliers of magnitude at most
`2 ^ 22`.  The axes of the caller's grid are as before in both cases, and the
grid handed to the magnetic-boundary adjustment is the caller's grid as the
call leaves it: unpadded, and transformed for chi2. -/
theorem computeContours_grid (env : Env) (s s' : ProgState) (type : histogramType)
    (hrun : computeContours env s type = some s') :
    (type = histogramType.kPvalue → s'.hist = s.hist) ∧
    (type = histogramType.kChi2 →
      s'.hist = transformChi2valleyToHill s.hist 30 ∧
      (s.hist.boundedBy (2 ^ 125) →
        ∀ ix iy, 1 ≤ ix ∧ ix ≤ s.hist.GetNbinsX → 1 ≤ iy ∧ iy ≤ s.hist.GetNbinsY →
          s'.hist.GetBinContent ix iy
            = toFloat (toDouble (toDouble (-s.hist.GetBinContent ix iy + 30)
                + toFloat s.hist.GetMinimum)) ∧
          |s'.hist.GetBinContent ix iy| ≤ 2 ^ 127) ∧
      (∀ k b : ℤ, -149 ≤ k → |b| ≤ 2 ^ 22 → (30 : ℚ) = (b : ℚ) * 2 ^ k →
        s.hist.onLattice k (2 ^ 22) →
        ∀ ix iy, 1 ≤ ix ∧ ix ≤ s.hist.GetNbinsX → 1 ≤ iy ∧ iy ≤ s.hist.GetNbinsY →
          s'.hist.GetBinContent ix iy
            = 30 + s.hist.GetMinimum - s.hist.GetBinContent ix iy)) ∧
    s'.hist.GetXaxis = s.hist.GetXaxis ∧ s'.hist.GetYaxis = s.hist.GetYaxis ∧
    (s.self.m_arg.plotmagnetic = true →
      magneticLoop env.magneticBoundaries s'.hist
        (sigmaAssignment s.self.m_arg (tracedContours env s.self.m_arg s.hist type))
        = some s'.self.m_contours) := by
  have hhist : s'.hist = if type = histogramType.kChi2 then
      transformChi2valleyToHill s.hist offset else s.hist := by
    rw [computeContours_eq] at hrun
    cases hm : s.self.m_arg.plotmagnetic
    · simp only [hm, Bool.false_eq_true, if_false, Option.some.injEq] at hrun
      rw [← hrun]
    · simp only [hm, if_true] at hrun
      cases hloop : magneticLoop env.magneticBoundaries
          (if type = histogramType.kChi2 then
            transformChi2valleyToHill s.hist offset else s.hist)
          (sigmaAssignment s.self.m_arg (tracedContours env s.self.m_arg s.hist type)) with
      | none => simp [hloop] at hrun
      | some m =>
        simp only [hloop, Option.some.injEq] at hrun
        rw [← hrun]
  refine ⟨?_, ?_, ?_, ?_, ?_⟩
  · intro ht
    rw [hhist, ht]
    simp
  · intro ht
    have h30 : s'.hist = transformChi2valleyToHill s.hist 30 := by
      rw [hhist, if_pos ht]
      rfl
    refine ⟨h30, fun hb ix iy gx gy => ?_, fun k b hk hb2 hob hl ix iy gx gy => ?_⟩
    · rw [h30]
      exact ⟨transform_bin s.hist 30 ix iy gx gy,
        transform_bin_abs_le s.hist 30 ix iy gx gy hb (by norm_num [abs_le])⟩
    · rw [h30]
      exact transform_bin_exact s.hist 30 k b hk hb2 hob hl ix iy gx gy
  · rw [hhist]
    split_ifs
    · exact (transform_axes s.hist offset).1
    · rfl
  · rw [hhist]
    split_ifs
    · exact (transform_axes s.hist offset).2
    · rfl
  · intro hm
    rw [hhist]
    rw [computeContours_eq] at hrun
    simp only [hm, if_true] at hrun
    cases hloop : magneticLoop env.magneticBoundaries
        (if type = histogramType.kChi2 then
          transformChi2valleyToHill s.hist offset else s.hist)
        (sigmaAssignment s.self.m_arg (tracedContours env s.self.m_arg s.hist type)) with
    | none => simp [hloop] at hrun
    | some m =>
      simp only [hloop, Option.some.injEq] at hrun
      rw [← hrun]

/-- C15 (amended), on the chi2 sample grid. -/
theorem computeContours_grid_witness :
    (histogramType.kChi2 = histogramType.kPvalue → stateAfterChi2.hist = stateSample.hist) ∧
    (histogramType.kChi2 = histogramType.kChi2 →
      stateAfterChi2.hist = transformChi2valleyToHill stateSample.hist 30 ∧
      (stateSample.hist.boundedBy (2 ^ 125) →
        ∀ ix iy, 1 ≤ ix ∧ ix ≤ stateSample.hist.GetNbinsX →
          1 ≤ iy ∧ iy ≤ stateSample.hist.GetNbinsY →
          stateAfterChi2.hist.GetBinContent ix iy
            = toFloat (toDouble (toDouble (-stateSample.hist.GetBinContent ix iy + 30)
                + toFloat stateSample.hist.GetMinimum)) ∧
          |stateAfterChi2.hist.GetBinContent ix iy| ≤ 2 ^ 127) ∧
      (∀ k b : ℤ, -149 ≤ k → |b| ≤ 2 ^ 22 → (30 : ℚ) = (b : ℚ) * 2 ^ k →
        stateSample.hist.onLattice k (2 ^ 22) →
        ∀ ix iy, 1 ≤ ix ∧ ix ≤ stateSample.hist.GetNbinsX →
          1 ≤ iy ∧ iy ≤ stateSample.hist.GetNbinsY →
          stateAfterChi2.hist.GetBinContent ix iy
            = 30 + stateSample.hist.GetMinimum - stateSample.hist.GetBinContent ix iy)) ∧
    stateAfterChi2.hist.GetXaxis = stateSample.hist.GetXaxis ∧
    stateAfterChi2.hist.GetYaxis = stateSample.hist.GetYaxis ∧
    (stateSample.self.m_arg.plotmagnetic = true →
      magneticLoop envSample.magneticBoundaries stateAfterChi2.hist
        (sigmaAssignment stateSample.self.m_arg
          (tracedContours envSample stateSample.self.m_arg stateSample.hist
            histogramType.kChi2))
        = some stateAfterChi2.self.m_contours) :=
  computeContours_grid envSample stateSample stateAfterChi2 histogramType.kChi2
    (computeContours_no_magnetic envSample stateSample histogramType.kChi2 rfl)

/-- C16 (the code at the failing input): with the batch flag enabled before the
call, `computeContours` returns with the flag disabled. -/
theorem computeContours_batch_lost :
    stateBatch.batch = true ∧
    ∃ s', computeContours envSample stateBatch histogramType.kChi2 = some s' ∧
      s'.batch = false :=
  ⟨rfl, _, computeContours_no_magnetic envSample stateBatch histogramType.kChi2 rfl, rfl⟩

/-- C18 (the code at the failing input): with the magnetic adjustment enabled
and two contours produced, `computeContours` indexes `m_contours[4]`, out of
range. -/
theorem computeContours_magnetic_short :
    stateMagnetic.self.m_arg.plotmagnetic = true ∧
    (sigmaAssignment stateMagnetic.self.m_arg
      (tracedContours envSample stateMagnetic.self.m_arg stateMagnetic.hist
        histogramType.kChi2)).length = 2 ∧
    computeContours envSample stateMagnetic histogramType.kChi2 = none := by
  refine ⟨rfl, by decide, ?_⟩
  rw [computeContours_eq, magneticLoop_short _ _ _ (by decide)]
  rfl

end ConfidenceContours
